import Mathlib

/-
Shallow embedding of `src/hash_map_review.h` (a Hopscotch hash map).

Keys and values are specialized to `Nat`; the hash function is an explicit
parameter `hash : Nat → Nat` of every operation (the C++ object stores it in
the member `hash_func_` at construction and never changes it, so threading it
as a fixed parameter is observationally identical).  The `long double`
load-factor comparisons against `MAX_LOAD_FACTOR = 0.5` and
`MIN_LOAD_FACTOR = 0.1` are modelled by the exact rational comparisons
`2 * pairs_count > array_size` and `10 * pairs_count < array_size`.
`std::vector<Bucket>` is modelled as `List Bucket` with `getD`/`set` as
element access; out-of-range reads (undefined behaviour in C++, and proved
unreachable here, see the window-scan bounds theorem) return the default
bucket.
-/

def NEXT : Nat := 32
def INITIAL_SIZE : Nat := 32

structure Bucket where
  key : Nat
  val : Nat
  occ : Bool
deriving DecidableEq, Repr

instance : Inhabited Bucket := ⟨⟨0, 0, false⟩⟩

/-- C++ `Bucket::operator=`: the stored pair is copied only when the source
bucket is occupied; the occupancy flag is always copied. -/
def Bucket.assign (dst src : Bucket) : Bucket :=
  { key := if src.occ then src.key else dst.key
    val := if src.occ then src.val else dst.val
    occ := src.occ }

/-- C++ `Bucket::IsOccupied` / `Bucket::HasKey`. -/
def Bucket.hasKey (b : Bucket) (k : Nat) : Bool := b.occ && (b.key == k)

/-- C++ `Bucket::Set` (assignment from a freshly constructed occupied bucket). -/
def Bucket.set (b : Bucket) (k v : Nat) : Bucket := Bucket.assign b ⟨k, v, true⟩

/-- C++ `Bucket::Erase`: only clears the occupancy flag. -/
def Bucket.erase (b : Bucket) : Bucket := { b with occ := false }

/-- C++ copy construction `Bucket(other)`: assignment into a default bucket. -/
def Bucket.copy (src : Bucket) : Bucket := Bucket.assign default src

/-- `std::swap` on buckets, through copy construction and the user-defined
assignment: `tmp = x; x = y; y = tmp`. -/
def swapPair (x y : Bucket) : Bucket × Bucket :=
  let tmp := Bucket.copy x
  (Bucket.assign x y, Bucket.assign y tmp)

/-- Element access `array_[i]`. -/
def slotAt (arr : List Bucket) (i : Nat) : Bucket := arr.getD i default

/-- C++ `BucketArray` (minus the stored hash function, threaded separately). -/
structure BucketArray where
  array : List Bucket
  pairsCount : Nat
deriving DecidableEq, Repr

/-- C++ `BucketArray(size, hash)`: `array_(size + NEXT - 1)`, `pairs_count_(0)`. -/
def BucketArray.mk0 (size : Nat) : BucketArray :=
  ⟨List.replicate (size + NEXT - 1) default, 0⟩

/-- `array_.size() - NEXT + 1`, the number of addressable positions. -/
def BucketArray.capacity (b : BucketArray) : Nat := b.array.length - NEXT + 1

/-- C++ `BucketArray::GetIndex`. -/
def BucketArray.GetIndex (hash : Nat → Nat) (b : BucketArray) (k : Nat) : Nat :=
  hash k % b.capacity

/-- The first-unoccupied-slot scan of `BucketArray::Insert` (the `for` loop
looking for `empty_bucket`, from `arr_index` to the physical end). -/
def firstEmptyFrom (arr : List Bucket) (i : Nat) : Option Nat :=
  (List.range' i (arr.length - i)).find? (fun j => !(slotAt arr j).occ)

/-- `std::swap(array_[pot], array_[empty])`. -/
def swapSlots (arr : List Bucket) (pot e : Nat) : List Bucket :=
  let p := swapPair (slotAt arr pot) (slotAt arr e)
  (arr.set pot p.1).set e p.2

/-- The inner `for` loop of the displacement phase: the first
`pot_bucket ∈ [empty_bucket - NEXT + 1, empty_bucket)` whose key's ideal
index still covers `empty_bucket` (`empty_bucket < ideal_index + NEXT`).
After a swap the C++ loop immediately exits (the updated `empty_bucket`
makes the loop condition false), so one candidate per pass is faithful. -/
def findSwapCandidate (hash : Nat → Nat) (cap : Nat) (arr : List Bucket)
    (e : Nat) : Option Nat :=
  (List.range' (e - NEXT + 1) (NEXT - 1)).find?
    (fun pot => e < hash (slotAt arr pot).key % cap + NEXT)

/-- The `while` loop of `BucketArray::Insert`, with explicit fuel for
structural recursion.  Each iteration strictly decreases `empty_bucket`, so
fuel `e + 1` (supplied by `displaceLoop`) always suffices and the fuel-0
branch is unreachable.  Returns the (possibly swapped) array together with
`some final_empty` when `swapped` ends up true, `none` on failure — note the
swaps performed before a failure are kept, exactly as in the source. -/
def displaceGo (hash : Nat → Nat) (cap : Nat) :
    Nat → List Bucket → Nat → Nat → List Bucket × Option Nat
  | 0, arr, _, _ => (arr, none)
  | fuel + 1, arr, idx, e =>
    if idx + NEXT ≤ e then
      match findSwapCandidate hash cap arr e with
      | none => (arr, none)
      | some pot => displaceGo hash cap fuel (swapSlots arr pot e) idx pot
    else (arr, some e)

def displaceLoop (hash : Nat → Nat) (cap : Nat) (arr : List Bucket)
    (idx e : Nat) : List Bucket × Option Nat :=
  displaceGo hash cap (e + 1) arr idx e

/-- C++ `BucketArray::Insert`.  The returned `Option Nat` is the slot index
written on success (`{true, array_[empty_bucket].GetRef()}`); `none` models
`{false, fake_pair}`. -/
def BucketArray.Insert (hash : Nat → Nat) (b : BucketArray) (k v : Nat) :
    BucketArray × Option Nat :=
  let idx := b.GetIndex hash k
  match firstEmptyFrom b.array idx with
  | none => (b, none)
  | some e0 =>
    match displaceLoop hash b.capacity b.array idx e0 with
    | (arr', none) => (⟨arr', b.pairsCount⟩, none)
    | (arr', some e) =>
      (⟨arr'.set e (Bucket.set (slotAt arr' e) k v), b.pairsCount + 1⟩, some e)

/-- C++ `BucketArray::Find`: scan the `NEXT` slots starting at the ideal
index, return the first whose bucket `HasKey`. -/
def BucketArray.Find (hash : Nat → Nat) (b : BucketArray) (k : Nat) :
    Option Nat :=
  (List.range' (b.GetIndex hash k) NEXT).find?
    (fun i => (slotAt b.array i).hasKey k)

/-- C++ `BucketArray::Erase`. -/
def BucketArray.Erase (hash : Nat → Nat) (b : BucketArray) (k : Nat) :
    BucketArray × Bool :=
  match b.Find hash k with
  | some i => (⟨b.array.set i (slotAt b.array i).erase, b.pairsCount - 1⟩, true)
  | none => (b, false)

/-- The occupied slots of the array in physical-index order, as key/value
pairs: this is exactly the sequence produced by iterating the container's
bucket-array part. -/
def entriesOf (arr : List Bucket) : List (Nat × Nat) :=
  (List.range arr.length).filterMap
    (fun j => if (slotAt arr j).occ then some ((slotAt arr j).key, (slotAt arr j).val) else none)

/-- Number of occupied slots. -/
def occCount (arr : List Bucket) : Nat :=
  (List.range arr.length).countP (fun j => (slotAt arr j).occ)

/-- C++ `HashMap` (façade): one `BucketArray` plus the overflow vector
`list_`.  Overflow elements are stored as occupied buckets whose occupancy
flag is never consulted by any `list_` operation, so they are modelled as
bare pairs. -/
structure HashMap where
  table : BucketArray
  list : List (Nat × Nat)
deriving DecidableEq, Repr

/-- `HashMap(hash)`: `b_array_(INITIAL_SIZE, hash)`, empty overflow. -/
def HashMap.mk0 : HashMap := ⟨BucketArray.mk0 INITIAL_SIZE, []⟩

/-- C++ `HashMap::size`. -/
def HashMap.size (m : HashMap) : Nat := m.table.pairsCount + m.list.length

/-- C++ `HashMap::empty`. -/
def HashMap.emptyQ (m : HashMap) : Bool := m.size == 0

/-- The linear scan of `list_` used by `HashMap::find`: first element with
the key. -/
def findOverflow (k : Nat) : List (Nat × Nat) → Option (Nat × Nat)
  | [] => none
  | p :: ps => if p.1 = k then some p else findOverflow k ps

/-- C++ `HashMap::find`: the table first, then the overflow store.
`some (Sum.inl i)` is an iterator into the bucket array, `some (Sum.inr p)`
an iterator to an overflow element, `none` is `end()`. -/
def HashMap.findRes (hash : Nat → Nat) (m : HashMap) (k : Nat) :
    Option (Nat ⊕ (Nat × Nat)) :=
  match m.table.Find hash k with
  | some i => some (Sum.inl i)
  | none => (findOverflow k m.list).map Sum.inr

/-- The value `it->second` of a successful `find`, `none` at `end()`. -/
def HashMap.findVal (hash : Nat → Nat) (m : HashMap) (k : Nat) : Option Nat :=
  match m.findRes hash k with
  | some (Sum.inl i) => some (slotAt m.table.array i).val
  | some (Sum.inr p) => some p.2
  | none => none

/-- The whole-container iteration order (`begin()`..`end()`): occupied table
slots in physical order, then the overflow store in order. -/
def HashMap.entries (m : HashMap) : List (Nat × Nat) :=
  entriesOf m.table.array ++ m.list

/-- One step of the re-insertion loop of `HashMap::Reconstruct`: try the new
table, on failure push to the new overflow store. -/
def insertEntry (hash : Nat → Nat) (m : HashMap) (p : Nat × Nat) : HashMap :=
  match m.table.Insert hash p.1 p.2 with
  | (t, some _) => ⟨t, m.list⟩
  | (t, none) => ⟨t, m.list ++ [p]⟩

/-- C++ `HashMap::Reconstruct(change_size, clear)`. -/
def HashMap.Reconstruct (hash : Nat → Nat) (m : HashMap)
    (change_size clear : Bool) : HashMap :=
  let cap := m.table.capacity
  let ns0 := if change_size then
      (if 10 * m.table.pairsCount < m.table.array.length then cap / 2 else cap * 2)
    else cap
  let new_size := max ns0 INITIAL_SIZE
  let init : HashMap := ⟨BucketArray.mk0 new_size, []⟩
  if clear then init else m.entries.foldl (insertEntry hash) init

/-- Where the reference returned by `ForceInsert` points. -/
inductive RefLoc where
  | table (i : Nat)
  | overflow (i : Nat)
deriving DecidableEq, Repr

/-- The load-factor check at the top of `HashMap::ForceInsert`: reconstruct
when the load factor is outside `(MIN_LOAD_FACTOR, MAX_LOAD_FACTOR]`…
more precisely when `lf > 0.5 ∨ lf < 0.1`. -/
def HashMap.preInsertState (hash : Nat → Nat) (m : HashMap) : HashMap :=
  if 2 * m.table.pairsCount > m.table.array.length
      ∨ 10 * m.table.pairsCount < m.table.array.length then
    m.Reconstruct hash true false
  else m

/-- C++ `HashMap::ForceInsert`. -/
def HashMap.ForceInsert (hash : Nat → Nat) (m : HashMap) (k v : Nat) :
    HashMap × RefLoc :=
  let m1 := m.preInsertState hash
  match m1.table.Insert hash k v with
  | (t, some i) => (⟨t, m1.list⟩, RefLoc.table i)
  | (t, none) => (⟨t, m1.list ++ [(k, v)]⟩, RefLoc.overflow m1.list.length)

/-- C++ `HashMap::insert`: no-op when `find` does not return `end()`. -/
def HashMap.insert (hash : Nat → Nat) (m : HashMap) (k v : Nat) : HashMap :=
  if m.findRes hash k = none then (m.ForceInsert hash k v).1 else m

/-- C++ `HashMap::erase`: table erase first; only when it reports not-found,
remove the first matching overflow element. -/
def HashMap.erase (hash : Nat → Nat) (m : HashMap) (k : Nat) : HashMap :=
  let r := m.table.Erase hash k
  if r.2 then ⟨r.1, m.list⟩
  else ⟨m.table, m.list.eraseP (fun p => p.1 == k)⟩

/-- C++ `HashMap::operator[]`: auto-vivifies with the default value `0`
(`ValueType()`); returns the new state and the referenced value. -/
def HashMap.indexAccess (hash : Nat → Nat) (m : HashMap) (k : Nat) :
    HashMap × Nat :=
  match m.findVal hash k with
  | none => ((m.ForceInsert hash k 0).1, 0)
  | some v => (m, v)

/-- C++ `HashMap::at`: `Except.error ()` models the thrown
`std::out_of_range` (KeyNotFound); the map is not touched. -/
def HashMap.atKey (hash : Nat → Nat) (m : HashMap) (k : Nat) :
    Except Unit Nat :=
  match m.findVal hash k with
  | none => Except.error ()
  | some v => Except.ok v

/-- C++ `HashMap::clear`. -/
def HashMap.clear (hash : Nat → Nat) (m : HashMap) : HashMap :=
  m.Reconstruct hash false true

/-- The public mutating operations reachable-state analysis quantifies over. -/
inductive Op where
  | ins (k v : Nat)
  | er (k : Nat)
  | idx (k : Nat)
  | clr
deriving DecidableEq, Repr

def applyOp (hash : Nat → Nat) (m : HashMap) : Op → HashMap
  | Op.ins k v => m.insert hash k v
  | Op.er k => m.erase hash k
  | Op.idx k => (m.indexAccess hash k).1
  | Op.clr => m.clear hash

/-- The state after a finite operation sequence from a freshly constructed
map. -/
def runOps (hash : Nat → Nat) (ops : List Op) : HashMap :=
  ops.foldl (applyOp hash) HashMap.mk0

/-! ### Analysis predicates (about the embedded program) -/

/-- The value that first-insert-wins semantics associates to `k` after
inserting a sequence of pairs: the value of the first pair with key `k`. -/
def firstValue (k : Nat) : List (Nat × Nat) → Option Nat
  | [] => none
  | p :: ps => if p.1 = k then some p.2 else firstValue k ps

/-- Slot `j` is occupied and holds the pair `(k, v)`. -/
def hasPairAt (arr : List Bucket) (k v j : Nat) : Prop :=
  j < arr.length ∧ (slotAt arr j).occ = true ∧
    (slotAt arr j).key = k ∧ (slotAt arr j).val = v

/-- Some occupied slot holds the pair `(k, v)`. -/
def hasPair (arr : List Bucket) (k v : Nat) : Prop := ∃ j, hasPairAt arr k v j

/-- Slot `j` is occupied and holds key `k`. -/
def hasKeySlot (arr : List Bucket) (k : Nat) (j : Nat) : Prop :=
  j < arr.length ∧ (slotAt arr j).occ = true ∧ (slotAt arr j).key = k

/-- No two distinct occupied slots hold the same key. -/
def UniqKeys (arr : List Bucket) : Prop :=
  ∀ k j1 j2, hasKeySlot arr k j1 → hasKeySlot arr k j2 → j1 = j2

/-- The placement (neighborhood) invariant: every occupied slot `j` holding
key `k` satisfies `ideal(k) ≤ j < ideal(k) + NEXT` where
`ideal(k) = hash k % cap`. -/
def Placed (hash : Nat → Nat) (cap : Nat) (arr : List Bucket) : Prop :=
  ∀ j, j < arr.length → (slotAt arr j).occ = true →
    hash (slotAt arr j).key % cap ≤ j ∧
      j < hash (slotAt arr j).key % cap + NEXT

/-- All slots of `[i, e)` are occupied. -/
def occRange (arr : List Bucket) (i e : Nat) : Prop :=
  ∀ j, j < e → i ≤ j → (slotAt arr j).occ = true

/-- The invariant of the displacement `while` loop of `BucketArray::Insert`,
for insertion ideal index `idx` and current free slot `e`: the free slot is
a real, unoccupied slot at or after `idx`, every slot from `idx` up to it is
occupied, and the whole array satisfies the placement invariant. -/
def LoopInv (hash : Nat → Nat) (cap : Nat) (arr : List Bucket)
    (idx e : Nat) : Prop :=
  e < arr.length ∧ idx ≤ e ∧ (slotAt arr e).occ = false ∧
    occRange arr idx e ∧ Placed hash cap arr

/-- Key `k` is stored with value `v` somewhere in the logical map (in the
table or in the overflow store). -/
def HashMap.stored (m : HashMap) (k v : Nat) : Prop :=
  hasPair m.table.array k v ∨ (k, v) ∈ m.list

/-- The façade-level well-formedness invariant: the physical array is long
enough for full windows, `pairs_count_` counts the occupied slots, the
placement invariant holds, keys are unique within the table, unique within
the overflow store, and no key is in both. -/
def HashMap.WF (hash : Nat → Nat) (m : HashMap) : Prop :=
  NEXT ≤ m.table.array.length ∧
  m.table.pairsCount = occCount m.table.array ∧
  Placed hash m.table.capacity m.table.array ∧
  UniqKeys m.table.array ∧
  (m.list.map Prod.fst).Nodup ∧
  (∀ p, p ∈ m.list → ∀ j, ¬ hasKeySlot m.table.array p.1 j)

/-! ### Basic lemmas about slots, scans and counts -/

theorem slotAt_oob {arr : List Bucket} {j : Nat} (h : arr.length ≤ j) :
    slotAt arr j = default :=
  List.getD_eq_default _ _ h

theorem slotAt_set_self {arr : List Bucket} {i : Nat} {x : Bucket}
    (h : i < arr.length) : slotAt (arr.set i x) i = x := by
  unfold slotAt
  rw [List.getD_eq_getElem _ _ (show i < (arr.set i x).length by simpa using h)]
  simp

theorem slotAt_set_ne {arr : List Bucket} {i : Nat} {x : Bucket} {j : Nat}
    (h : j ≠ i) : slotAt (arr.set i x) j = slotAt arr j := by
  by_cases hj : j < arr.length
  · unfold slotAt
    rw [List.getD_eq_getElem _ _ (show j < (arr.set i x).length by simpa using hj),
      List.getD_eq_getElem _ _ hj]
    exact List.getElem_set_ne (fun he => h he.symm) _
  · rw [slotAt_oob (by simpa using Nat.le_of_not_lt hj),
      slotAt_oob (Nat.le_of_not_lt hj)]

theorem slotAt_replicate {n j : Nat} :
    slotAt (List.replicate n (default : Bucket)) j = default := by
  by_cases h : j < n
  · unfold slotAt
    rw [List.getD_eq_getElem _ _ (show j < (List.replicate n (default : Bucket)).length by simpa using h)]
    simp
  · exact slotAt_oob (by simpa using Nat.le_of_not_lt h)

theorem find?_range'_some {p : Nat → Bool} :
    ∀ {n s j : Nat}, (List.range' s n).find? p = some j ↔
      s ≤ j ∧ j < s + n ∧ p j = true ∧ ∀ t, s ≤ t → t < j → p t = false := by
  intro n
  induction n with
  | zero =>
    intro s j
    constructor
    · intro h; exact absurd h (by simp)
    · rintro ⟨h1, h2, -, -⟩; exfalso; omega
  | succ n ih =>
    intro s j
    rw [List.range'_succ]
    by_cases hp : p s
    · rw [List.find?_cons_of_pos _ hp]
      constructor
      · intro h
        cases h
        exact ⟨Nat.le_refl _, by omega, hp, fun t h1 h2 => absurd h1 (by omega)⟩
      · rintro ⟨h1, h2, h3, h4⟩
        have hj : j = s := by
          by_contra hne
          have := h4 s (Nat.le_refl _) (by omega)
          rw [hp] at this
          cases this
        rw [hj]
    · rw [List.find?_cons_of_neg _ hp]
      rw [ih]
      constructor
      · rintro ⟨h1, h2, h3, h4⟩
        refine ⟨by omega, by omega, h3, ?_⟩
        intro t ht1 ht2
        rcases Nat.eq_or_lt_of_le ht1 with he | hlt
        · rw [← he]; exact Bool.eq_false_iff.mpr hp
        · exact h4 t hlt ht2
      · rintro ⟨h1, h2, h3, h4⟩
        have hjs : j ≠ s := by
          rintro rfl
          rw [h3] at hp
          exact hp rfl
        exact ⟨by omega, by omega, h3, fun t ht1 ht2 => h4 t (by omega) ht2⟩

theorem find?_range'_none {p : Nat → Bool} {s n : Nat} :
    (List.range' s n).find? p = none ↔
      ∀ t, s ≤ t → t < s + n → p t = false := by
  rw [List.find?_eq_none]
  constructor
  · intro h t h1 h2
    have := h t (by rw [List.mem_range']; exact ⟨t - s, by omega, by omega⟩)
    simpa using this
  · intro h x hx
    rw [List.mem_range'] at hx
    obtain ⟨i, hi, rfl⟩ := hx
    have := h (s + 1 * i) (by omega) (by omega)
    simpa using this

theorem countP_range_update {n i : Nat} {p : Nat → Bool} {b : Bool}
    (hi : i < n) :
    (List.range n).countP (fun j => if j = i then b else p j)
        + (if p i then 1 else 0)
      = (List.range n).countP p + (if b then 1 else 0) := by
  induction n with
  | zero => exact absurd hi (Nat.not_lt_zero i)
  | succ n ih =>
    rw [List.range_succ, List.countP_append, List.countP_append]
    by_cases h : i = n
    · subst h
      have hpre : (List.range i).countP (fun j => if j = i then b else p j)
          = (List.range i).countP p := by
        apply List.countP_congr
        intro x hx
        rw [List.mem_range] at hx
        simp [Nat.ne_of_lt hx]
      rw [hpre]
      cases b <;> by_cases hpi : p i <;>
        simp [List.countP_cons, hpi]
    · have hi' : i < n := by omega
      have hsing : ([n] : List Nat).countP (fun j => if j = i then b else p j)
          = ([n] : List Nat).countP p := by
        have : ¬ (n = i) := fun he => h he.symm
        simp [List.countP_cons, this]
      rw [hsing]
      have := ih hi'
      omega

theorem occCount_set {arr : List Bucket} {i : Nat} {x : Bucket}
    (hi : i < arr.length) :
    occCount (arr.set i x) + (if (slotAt arr i).occ then 1 else 0)
      = occCount arr + (if x.occ then 1 else 0) := by
  unfold occCount
  rw [List.length_set]
  have hcong : (List.range arr.length).countP
        (fun j => (slotAt (arr.set i x) j).occ)
      = (List.range arr.length).countP
        (fun j => if j = i then x.occ else (slotAt arr j).occ) := by
    apply List.countP_congr
    intro j hj
    by_cases h : j = i
    · subst h; rw [slotAt_set_self hi]; simp
    · rw [slotAt_set_ne h]; simp [h]
  rw [hcong]
  exact countP_range_update hi

theorem mem_entriesOf {arr : List Bucket} {k v : Nat} :
    (k, v) ∈ entriesOf arr ↔ hasPair arr k v := by
  unfold entriesOf hasPair hasPairAt
  rw [List.mem_filterMap]
  constructor
  · rintro ⟨j, hj, hf⟩
    rw [List.mem_range] at hj
    by_cases h : (slotAt arr j).occ
    · rw [if_pos h] at hf
      have := Option.some.inj hf
      exact ⟨j, hj, h, congrArg Prod.fst this, congrArg Prod.snd this⟩
    · rw [if_neg h] at hf; cases hf
  · rintro ⟨j, hj, ho, hk, hv⟩
    exact ⟨j, List.mem_range.mpr hj, by rw [if_pos ho, hk, hv]⟩

theorem length_entriesOf (arr : List Bucket) :
    (entriesOf arr).length = occCount arr := by
  unfold entriesOf occCount
  generalize List.range arr.length = l
  induction l with
  | nil => rfl
  | cons a l ih =>
    rw [List.filterMap_cons, List.countP_cons]
    by_cases h : (slotAt arr a).occ <;> simp [h, ih]

/-! ### Effect of one displacement swap -/

theorem length_swapSlots (arr : List Bucket) (pot e : Nat) :
    (swapSlots arr pot e).length = arr.length := by
  simp [swapSlots]

theorem slotAt_swapSlots_e {arr : List Bucket} {pot e : Nat}
    (he : e < arr.length) (ho : (slotAt arr pot).occ = true) :
    slotAt (swapSlots arr pot e) e
      = ⟨(slotAt arr pot).key, (slotAt arr pot).val, true⟩ := by
  unfold swapSlots swapPair
  rw [slotAt_set_self (by simpa using he)]
  simp [Bucket.assign, Bucket.copy, ho]

theorem slotAt_swapSlots_pot {arr : List Bucket} {pot e : Nat}
    (hpot : pot < arr.length) (hne : pot ≠ e)
    (hu : (slotAt arr e).occ = false) :
    slotAt (swapSlots arr pot e) pot
      = ⟨(slotAt arr pot).key, (slotAt arr pot).val, false⟩ := by
  unfold swapSlots swapPair
  rw [slotAt_set_ne hne, slotAt_set_self hpot]
  simp [Bucket.assign, hu]

theorem slotAt_swapSlots_other {arr : List Bucket} {pot e j : Nat}
    (hj1 : j ≠ pot) (hj2 : j ≠ e) :
    slotAt (swapSlots arr pot e) j = slotAt arr j := by
  unfold swapSlots
  rw [slotAt_set_ne hj2, slotAt_set_ne hj1]

theorem occCount_swapSlots {arr : List Bucket} {pot e : Nat}
    (hpot : pot < arr.length) (he : e < arr.length) (hne : pot ≠ e)
    (ho : (slotAt arr pot).occ = true) (hu : (slotAt arr e).occ = false) :
    occCount (swapSlots arr pot e) = occCount arr := by
  have hA : (Bucket.assign (slotAt arr pot) (slotAt arr e)).occ = false := by
    simp [Bucket.assign, hu]
  have hB : (Bucket.assign (slotAt arr e) (Bucket.copy (slotAt arr pot))).occ
      = true := by
    simp [Bucket.assign, Bucket.copy, ho]
  have h1 := @occCount_set arr pot
    (Bucket.assign (slotAt arr pot) (slotAt arr e)) hpot
  have he1 : e < (arr.set pot
      (Bucket.assign (slotAt arr pot) (slotAt arr e))).length := by
    simpa using he
  have h2 := @occCount_set
    (arr.set pot (Bucket.assign (slotAt arr pot) (slotAt arr e))) e
    (Bucket.assign (slotAt arr e) (Bucket.copy (slotAt arr pot))) he1
  rw [slotAt_set_ne (fun hh => hne hh.symm)] at h2
  rw [ho, hA] at h1
  rw [hu, hB] at h2
  simp at h1 h2
  show occCount ((arr.set pot
      (Bucket.assign (slotAt arr pot) (slotAt arr e))).set e
      (Bucket.assign (slotAt arr e) (Bucket.copy (slotAt arr pot)))) = occCount arr
  omega

theorem hasPair_swapSlots {arr : List Bucket} {pot e : Nat}
    (hpot : pot < arr.length) (he : e < arr.length) (hne : pot ≠ e)
    (ho : (slotAt arr pot).occ = true) (hu : (slotAt arr e).occ = false)
    (k v : Nat) :
    hasPair (swapSlots arr pot e) k v ↔ hasPair arr k v := by
  constructor
  · rintro ⟨j, hj, hjo, hjk, hjv⟩
    rw [length_swapSlots] at hj
    by_cases h1 : j = e
    · subst h1
      rw [slotAt_swapSlots_e he ho] at hjo hjk hjv
      exact ⟨pot, hpot, ho, hjk, hjv⟩
    · by_cases h2 : j = pot
      · subst h2
        rw [slotAt_swapSlots_pot hpot hne hu] at hjo
        exact absurd hjo (by simp)
      · rw [slotAt_swapSlots_other h2 h1] at hjo hjk hjv
        exact ⟨j, hj, hjo, hjk, hjv⟩
  · rintro ⟨j, hj, hjo, hjk, hjv⟩
    by_cases h2 : j = pot
    · subst h2
      refine ⟨e, by rw [length_swapSlots]; exact he, ?_, ?_, ?_⟩
      · rw [slotAt_swapSlots_e he ho]
      · rw [slotAt_swapSlots_e he ho]; exact hjk
      · rw [slotAt_swapSlots_e he ho]; exact hjv
    · by_cases h1 : j = e
      · subst h1
        rw [hu] at hjo
        cases hjo
      · exact ⟨j, by rw [length_swapSlots]; exact hj,
          by rw [slotAt_swapSlots_other h2 h1]; exact hjo,
          by rw [slotAt_swapSlots_other h2 h1]; exact hjk,
          by rw [slotAt_swapSlots_other h2 h1]; exact hjv⟩

theorem UniqKeys_swapSlots {arr : List Bucket} {pot e : Nat}
    (hpot : pot < arr.length) (he : e < arr.length) (hne : pot ≠ e)
    (ho : (slotAt arr pot).occ = true) (hu : (slotAt arr e).occ = false)
    (hU : UniqKeys arr) : UniqKeys (swapSlots arr pot e) := by
  intro k j1 j2 h1 h2
  have key : ∀ j, hasKeySlot (swapSlots arr pot e) k j →
      j ≠ pot ∧ hasKeySlot arr k (if j = e then pot else j) := by
    rintro j ⟨hj, hjo, hjk⟩
    rw [length_swapSlots] at hj
    by_cases hje : j = e
    · subst hje
      rw [slotAt_swapSlots_e he ho] at hjo hjk
      exact ⟨fun hh => hne hh.symm, by rw [if_pos rfl]; exact ⟨hpot, ho, hjk⟩⟩
    · by_cases hjp : j = pot
      · subst hjp
        rw [slotAt_swapSlots_pot hpot hne hu] at hjo
        exact absurd hjo (by simp)
      · rw [slotAt_swapSlots_other hjp hje] at hjo hjk
        exact ⟨hjp, by rw [if_neg hje]; exact ⟨hj, hjo, hjk⟩⟩
  obtain ⟨hn1, hk1⟩ := key _ h1
  obtain ⟨hn2, hk2⟩ := key _ h2
  have heq := hU k _ _ hk1 hk2
  by_cases a1 : j1 = e
  · by_cases a2 : j2 = e
    · rw [a1, a2]
    · rw [if_pos a1, if_neg a2] at heq
      exact absurd heq.symm hn2
  · by_cases a2 : j2 = e
    · rw [if_neg a1, if_pos a2] at heq
      exact absurd heq hn1
    · rw [if_neg a1, if_neg a2] at heq
      exact heq

theorem Placed_swapSlots {hash : Nat → Nat} {cap : Nat} {arr : List Bucket}
    {pot e : Nat} (hP : Placed hash cap arr)
    (hpot : pot < arr.length) (he : e < arr.length) (hne : pot ≠ e)
    (ho : (slotAt arr pot).occ = true) (hu : (slotAt arr e).occ = false)
    (hcond : e < hash (slotAt arr pot).key % cap + NEXT)
    (hple : pot ≤ e) :
    Placed hash cap (swapSlots arr pot e) := by
  intro j hj hjo
  rw [length_swapSlots] at hj
  by_cases h1 : j = e
  · subst h1
    rw [slotAt_swapSlots_e he ho] at hjo ⊢
    exact ⟨Nat.le_trans (hP pot hpot ho).1 hple, hcond⟩
  · by_cases h2 : j = pot
    · subst h2
      rw [slotAt_swapSlots_pot hpot hne hu] at hjo
      exact absurd hjo (by simp)
    · rw [slotAt_swapSlots_other h2 h1] at hjo ⊢
      exact hP j hj hjo

/-! ### The displacement loop -/

theorem displaceGo_spec (hash : Nat → Nat) (cap : Nat) :
    ∀ (fuel : Nat) (arr : List Bucket) (idx e : Nat), e < fuel →
      LoopInv hash cap arr idx e →
      (displaceGo hash cap fuel arr idx e).1.length = arr.length ∧
      (∀ k v, hasPair (displaceGo hash cap fuel arr idx e).1 k v ↔
        hasPair arr k v) ∧
      occCount (displaceGo hash cap fuel arr idx e).1 = occCount arr ∧
      Placed hash cap (displaceGo hash cap fuel arr idx e).1 ∧
      (UniqKeys arr → UniqKeys (displaceGo hash cap fuel arr idx e).1) ∧
      (∀ e2, (displaceGo hash cap fuel arr idx e).2 = some e2 →
        idx ≤ e2 ∧ e2 < idx + NEXT ∧ e2 < arr.length ∧
        (slotAt (displaceGo hash cap fuel arr idx e).1 e2).occ = false) := by
  intro fuel
  induction fuel with
  | zero => intro arr idx e hfe; exact absurd hfe (by omega)
  | succ fuel ih =>
    intro arr idx e hfe hinv
    obtain ⟨hel, hie, hue, hor, hpl⟩ := hinv
    by_cases hc : idx + NEXT ≤ e
    · cases hfc : findSwapCandidate hash cap arr e with
      | none =>
        have hstep : displaceGo hash cap (fuel + 1) arr idx e = (arr, none) := by
          simp only [displaceGo, if_pos hc, hfc]
        rw [hstep]
        refine ⟨rfl, fun k v => Iff.rfl, rfl, hpl, fun h => h, ?_⟩
        intro e2 h
        exact Option.noConfusion h
      | some pot =>
        have hstep : displaceGo hash cap (fuel + 1) arr idx e
            = displaceGo hash cap fuel (swapSlots arr pot e) idx pot := by
          simp only [displaceGo, if_pos hc, hfc]
        have hNEXT : NEXT = 32 := rfl
        unfold findSwapCandidate at hfc
        obtain ⟨hge, hlt, hpred, -⟩ := find?_range'_some.mp hfc
        have hpred' : e < hash (slotAt arr pot).key % cap + NEXT :=
          of_decide_eq_true hpred
        have hpotlt : pot < e := by omega
        have hidxpot : idx < pot := by omega
        have ho : (slotAt arr pot).occ = true := hor pot hpotlt (by omega)
        have hne : pot ≠ e := by omega
        have hpotl : pot < arr.length := by omega
        have hinv2 : LoopInv hash cap (swapSlots arr pot e) idx pot := by
          refine ⟨by rw [length_swapSlots]; omega, by omega, ?_, ?_, ?_⟩
          · rw [slotAt_swapSlots_pot hpotl hne hue]
          · intro j hj1 hj2
            rw [slotAt_swapSlots_other (by omega) (by omega)]
            exact hor j (by omega) hj2
          · exact Placed_swapSlots hpl hpotl hel hne ho hue hpred' (by omega)
        have hrec := ih (swapSlots arr pot e) idx pot (by omega) hinv2
        obtain ⟨r1, r2, r3, r4, r5, r6⟩ := hrec
        rw [hstep]
        refine ⟨?_, ?_, ?_, r4, ?_, ?_⟩
        · rw [r1, length_swapSlots]
        · intro k v
          rw [r2 k v]
          exact hasPair_swapSlots hpotl hel hne ho hue k v
        · rw [r3, occCount_swapSlots hpotl hel hne ho hue]
        · intro hU
          exact r5 (UniqKeys_swapSlots hpotl hel hne ho hue hU)
        · intro e2 h
          obtain ⟨a1, a2, a3, a4⟩ := r6 e2 h
          rw [length_swapSlots] at a3
          exact ⟨a1, a2, a3, a4⟩
    · have hstep : displaceGo hash cap (fuel + 1) arr idx e = (arr, some e) := by
        simp only [displaceGo, if_neg hc]
      rw [hstep]
      refine ⟨rfl, fun k v => Iff.rfl, rfl, hpl, fun h => h, ?_⟩
      intro e2 h
      have he2 : e2 = e := by simpa using h.symm
      subst he2
      exact ⟨hie, by omega, hel, hue⟩

/-! ### Specification of `BucketArray::Insert` -/

theorem firstEmptyFrom_some {arr : List Bucket} {i e : Nat}
    (h : firstEmptyFrom arr i = some e) :
    i ≤ e ∧ e < arr.length ∧ (slotAt arr e).occ = false ∧
      ∀ j, j < e → i ≤ j → (slotAt arr j).occ = true := by
  unfold firstEmptyFrom at h
  obtain ⟨h1, h2, h3, h4⟩ := find?_range'_some.mp h
  refine ⟨h1, by omega, by simpa using h3, ?_⟩
  intro j hj hij
  have := h4 j hij hj
  simpa using this

theorem firstEmptyFrom_none {arr : List Bucket} {i : Nat}
    (h : firstEmptyFrom arr i = none) :
    ∀ j, i ≤ j → j < arr.length → (slotAt arr j).occ = true := by
  unfold firstEmptyFrom at h
  have hall := find?_range'_none.mp h
  intro j h1 h2
  have := hall j h1 (by omega)
  simpa using this

theorem Bucket.set_eq (b : Bucket) (k v : Nat) :
    Bucket.set b k v = ⟨k, v, true⟩ := by
  simp [Bucket.set, Bucket.assign]

theorem hasPair_set_new {arr : List Bucket} {e k v : Nat}
    (he : e < arr.length) (hu : (slotAt arr e).occ = false) (k' v' : Nat) :
    hasPair (arr.set e ⟨k, v, true⟩) k' v' ↔
      hasPair arr k' v' ∨ (k' = k ∧ v' = v) := by
  constructor
  · rintro ⟨j, hj, hjo, hjk, hjv⟩
    rw [List.length_set] at hj
    by_cases h1 : j = e
    · subst h1
      rw [slotAt_set_self he] at hjk hjv
      right
      exact ⟨hjk.symm, hjv.symm⟩
    · rw [slotAt_set_ne h1] at hjo hjk hjv
      left
      exact ⟨j, hj, hjo, hjk, hjv⟩
  · rintro (⟨j, hj, hjo, hjk, hjv⟩ | ⟨rfl, rfl⟩)
    · have h1 : j ≠ e := by
        rintro rfl
        rw [hu] at hjo
        cases hjo
      exact ⟨j, by simpa using hj, by rw [slotAt_set_ne h1]; exact hjo,
        by rw [slotAt_set_ne h1]; exact hjk, by rw [slotAt_set_ne h1]; exact hjv⟩
    · exact ⟨e, by simpa using he, by rw [slotAt_set_self he],
        by rw [slotAt_set_self he], by rw [slotAt_set_self he]⟩

theorem Placed_set_new {hash : Nat → Nat} {cap : Nat} {arr : List Bucket}
    {e k v : Nat} (hP : Placed hash cap arr) (he : e < arr.length)
    (hlo : hash k % cap ≤ e) (hhi : e < hash k % cap + NEXT) :
    Placed hash cap (arr.set e ⟨k, v, true⟩) := by
  intro j hj hjo
  rw [List.length_set] at hj
  by_cases h1 : j = e
  · subst h1
    rw [slotAt_set_self he] at hjo ⊢
    exact ⟨hlo, hhi⟩
  · rw [slotAt_set_ne h1] at hjo ⊢
    exact hP j hj hjo

theorem UniqKeys_set_new {arr : List Bucket} {e k v : Nat}
    (hU : UniqKeys arr) (he : e < arr.length)
    (hfresh : ∀ j, ¬ hasKeySlot arr k j) :
    UniqKeys (arr.set e ⟨k, v, true⟩) := by
  intro k0 j1 j2 h1 h2
  have conv : ∀ j, hasKeySlot (arr.set e ⟨k, v, true⟩) k0 j →
      (j = e ∧ k0 = k) ∨ (j ≠ e ∧ hasKeySlot arr k0 j) := by
    rintro j ⟨hj, hjo, hjk⟩
    rw [List.length_set] at hj
    by_cases hje : j = e
    · subst hje
      rw [slotAt_set_self he] at hjk
      left
      exact ⟨rfl, hjk.symm⟩
    · rw [slotAt_set_ne hje] at hjo hjk
      right
      exact ⟨hje, hj, hjo, hjk⟩
  rcases conv _ h1 with ⟨hb1, hk1⟩ | ⟨hne1, hs1⟩
  · rcases conv _ h2 with ⟨hb2, hk2⟩ | ⟨hne2, hs2⟩
    · rw [hb1, hb2]
    · subst hk1
      exact absurd hs2 (hfresh j2)
  · rcases conv _ h2 with ⟨hb2, hk2⟩ | ⟨hne2, hs2⟩
    · subst hk2
      exact absurd hs1 (hfresh j1)
    · exact hU k0 j1 j2 hs1 hs2

theorem occCount_set_new {arr : List Bucket} {e k v : Nat}
    (he : e < arr.length) (hu : (slotAt arr e).occ = false) :
    occCount (arr.set e ⟨k, v, true⟩) = occCount arr + 1 := by
  have h := @occCount_set arr e ⟨k, v, true⟩ he
  rw [hu] at h
  simpa using h

theorem hasKeySlot_val {arr : List Bucket} {k j : Nat}
    (h : hasKeySlot arr k j) : hasPair arr k ((slotAt arr j).val) :=
  ⟨j, h.1, h.2.1, h.2.2, rfl⟩

theorem hasPair_slot {arr : List Bucket} {k v : Nat}
    (h : hasPair arr k v) : ∃ j, hasKeySlot arr k j := by
  obtain ⟨j, h1, h2, h3, -⟩ := h
  exact ⟨j, h1, h2, h3⟩

theorem GetIndex_bound (hash : Nat → Nat) (b : BucketArray) (k : Nat)
    (h : NEXT ≤ b.array.length) :
    b.GetIndex hash k + NEXT ≤ b.array.length ∧
      b.GetIndex hash k < b.capacity := by
  have hN : NEXT = 32 := rfl
  have hcap : 0 < b.capacity := by
    unfold BucketArray.capacity
    omega
  have hm : hash k % b.capacity < b.capacity := Nat.mod_lt _ hcap
  unfold BucketArray.GetIndex
  unfold BucketArray.capacity at hm ⊢
  omega

theorem Insert_spec (hash : Nat → Nat) (b : BucketArray) (k v : Nat)
    (b' : BucketArray) (res : Option Nat)
    (hI : b.Insert hash k v = (b', res))
    (_hlen : NEXT ≤ b.array.length)
    (hP : Placed hash b.capacity b.array) :
    b'.array.length = b.array.length ∧
    Placed hash b.capacity b'.array ∧
    (res = none → b'.pairsCount = b.pairsCount ∧
      (∀ k' v', hasPair b'.array k' v' ↔ hasPair b.array k' v') ∧
      occCount b'.array = occCount b.array ∧
      (UniqKeys b.array → UniqKeys b'.array)) ∧
    (∀ e, res = some e →
      b'.pairsCount = b.pairsCount + 1 ∧
      occCount b'.array = occCount b.array + 1 ∧
      hasPairAt b'.array k v e ∧
      (∀ k' v', hasPair b'.array k' v' ↔
        (hasPair b.array k' v' ∨ (k' = k ∧ v' = v))) ∧
      ((∀ j, ¬ hasKeySlot b.array k j) → UniqKeys b.array →
        UniqKeys b'.array)) := by
  unfold BucketArray.Insert at hI
  cases hfe : firstEmptyFrom b.array (b.GetIndex hash k) with
  | none =>
    simp only [hfe] at hI
    injection hI with h1 h2
    subst h1
    subst h2
    refine ⟨rfl, hP, fun _ => ⟨rfl, fun _ _ => Iff.rfl, rfl, fun h => h⟩, ?_⟩
    intro e he
    exact Option.noConfusion he
  | some e0 =>
    simp only [hfe] at hI
    obtain ⟨hie, hel, hue, hocc⟩ := firstEmptyFrom_some hfe
    have hinv : LoopInv hash b.capacity b.array (b.GetIndex hash k) e0 :=
      ⟨hel, hie, hue, hocc, hP⟩
    have hspec := displaceGo_spec hash b.capacity (e0 + 1) b.array
      (b.GetIndex hash k) e0 (by omega) hinv
    rcases hdl : displaceLoop hash b.capacity b.array (b.GetIndex hash k) e0
      with ⟨arr1, res0⟩
    have hdlG := hdl
    unfold displaceLoop at hdlG
    rw [hdlG] at hspec
    obtain ⟨r1, r2, r3, r4, r5, r6⟩ := hspec
    have r1' : arr1.length = b.array.length := r1
    have r2' : ∀ k' v', hasPair arr1 k' v' ↔ hasPair b.array k' v' := r2
    have r3' : occCount arr1 = occCount b.array := r3
    have r4' : Placed hash b.capacity arr1 := r4
    have r5' : UniqKeys b.array → UniqKeys arr1 := r5
    cases res0 with
    | none =>
      simp only [hdl] at hI
      injection hI with h1 h2
      subst h1
      subst h2
      refine ⟨r1', r4', fun _ => ⟨rfl, r2', r3', r5'⟩, ?_⟩
      intro e he
      exact Option.noConfusion he
    | some e =>
      simp only [hdl] at hI
      injection hI with h1 h2
      subst h1
      subst h2
      obtain ⟨a1, a2, a3, a4⟩ := r6 e rfl
      have a4' : (slotAt arr1 e).occ = false := a4
      have hel' : e < arr1.length := by omega
      refine ⟨?_, ?_, ?_, ?_⟩
      · rw [Bucket.set_eq]
        show (arr1.set e ⟨k, v, true⟩).length = b.array.length
        rw [List.length_set]
        exact r1'
      · rw [Bucket.set_eq]
        show Placed hash b.capacity (arr1.set e ⟨k, v, true⟩)
        exact Placed_set_new r4' hel' a1 a2
      · intro hn
        exact Option.noConfusion hn
      · intro e2 he2
        have he2' : e = e2 := by
          injection he2
        subst he2'
        rw [Bucket.set_eq]
        refine ⟨rfl, ?_, ?_, ?_, ?_⟩
        · show occCount (arr1.set e ⟨k, v, true⟩) = occCount b.array + 1
          rw [occCount_set_new hel' a4', r3']
        · show hasPairAt (arr1.set e ⟨k, v, true⟩) k v e
          exact ⟨by simpa using hel', by rw [slotAt_set_self hel'],
            by rw [slotAt_set_self hel'], by rw [slotAt_set_self hel']⟩
        · intro k' v'
          show hasPair (arr1.set e ⟨k, v, true⟩) k' v' ↔ _
          rw [hasPair_set_new hel' a4' k' v', r2' k' v']
        · intro hfresh hU
          show UniqKeys (arr1.set e ⟨k, v, true⟩)
          have hfresh1 : ∀ j, ¬ hasKeySlot arr1 k j := by
            intro j hks
            obtain ⟨j0, hks0⟩ := hasPair_slot ((r2' k _).mp (hasKeySlot_val hks))
            exact hfresh j0 hks0
          exact UniqKeys_set_new (r5' hU) hel' hfresh1

/-! ### Lookup characterization -/

theorem lt_length_of_occ {arr : List Bucket} {j : Nat}
    (h : (slotAt arr j).occ = true) : j < arr.length := by
  by_contra hc
  rw [slotAt_oob (Nat.le_of_not_lt hc)] at h
  cases h

theorem Find_some {hash : Nat → Nat} {b : BucketArray} {k i : Nat}
    (h : b.Find hash k = some i) :
    b.GetIndex hash k ≤ i ∧ i < b.GetIndex hash k + NEXT ∧
    (slotAt b.array i).occ = true ∧ (slotAt b.array i).key = k := by
  unfold BucketArray.Find at h
  obtain ⟨h1, h2, h3, -⟩ := find?_range'_some.mp h
  unfold Bucket.hasKey at h3
  simp at h3
  exact ⟨h1, h2, h3.1, h3.2⟩

theorem Find_none_hasKey {hash : Nat → Nat} {b : BucketArray} {k : Nat}
    (h : b.Find hash k = none) :
    ∀ i, b.GetIndex hash k ≤ i → i < b.GetIndex hash k + NEXT →
      (slotAt b.array i).hasKey k = false := by
  unfold BucketArray.Find at h
  have hall := find?_range'_none.mp h
  intro i h1 h2
  exact hall i h1 h2

theorem Find_complete {hash : Nat → Nat} {b : BucketArray} {k j : Nat}
    (hP : Placed hash b.capacity b.array)
    (hks : hasKeySlot b.array k j) :
    b.Find hash k ≠ none := by
  intro hn
  obtain ⟨hj, ho, hk⟩ := hks
  have hp := hP j hj ho
  rw [hk] at hp
  have hfail := Find_none_hasKey hn j hp.1 hp.2
  unfold Bucket.hasKey at hfail
  rw [ho, hk] at hfail
  simp at hfail

theorem Find_eq_none_iff {hash : Nat → Nat} {b : BucketArray} {k : Nat}
    (hP : Placed hash b.capacity b.array) :
    b.Find hash k = none ↔ ∀ j, ¬ hasKeySlot b.array k j := by
  constructor
  · intro hn j hks
    exact Find_complete hP hks hn
  · intro hab
    cases hF : b.Find hash k with
    | none => rfl
    | some i =>
      obtain ⟨-, -, ho, hk⟩ := Find_some hF
      exact absurd ⟨lt_length_of_occ ho, ho, hk⟩ (hab i)

theorem findOverflow_none {k : Nat} {l : List (Nat × Nat)} :
    findOverflow k l = none ↔ ∀ p ∈ l, p.1 ≠ k := by
  induction l with
  | nil => simp [findOverflow]
  | cons p ps ih =>
    by_cases h : p.1 = k
    · simp [findOverflow, h]
    · simp [findOverflow, h, ih]

theorem findOverflow_some {k : Nat} {l : List (Nat × Nat)} {p : Nat × Nat}
    (h : findOverflow k l = some p) : p.1 = k ∧ p ∈ l := by
  induction l with
  | nil => cases h
  | cons q ps ih =>
    unfold findOverflow at h
    by_cases hq : q.1 = k
    · rw [if_pos hq] at h
      injection h with h
      subst h
      exact ⟨hq, List.mem_cons_self _ _⟩
    · rw [if_neg hq] at h
      obtain ⟨h1, h2⟩ := ih h
      exact ⟨h1, List.mem_cons_of_mem _ h2⟩

theorem mem_pair_eq_of_nodup {l : List (Nat × Nat)}
    (hN : (l.map Prod.fst).Nodup) {k v v' : Nat}
    (h1 : (k, v) ∈ l) (h2 : (k, v') ∈ l) : v = v' := by
  induction l with
  | nil => cases h1
  | cons q ps ih =>
    rw [List.map_cons, List.nodup_cons] at hN
    rcases List.mem_cons.mp h1 with he1 | h1'
    · rcases List.mem_cons.mp h2 with he2 | h2'
      · rw [← he1] at he2
        exact (congrArg Prod.snd he2).symm
      · exfalso
        apply hN.1
        rw [← he1]
        simpa using List.mem_map_of_mem Prod.fst h2'
    · rcases List.mem_cons.mp h2 with he2 | h2'
      · exfalso
        apply hN.1
        rw [← he2]
        simpa using List.mem_map_of_mem Prod.fst h1'
      · exact ih hN.2 h1' h2'

theorem findRes_none_iff {hash : Nat → Nat} {m : HashMap} {k : Nat}
    (hWF : m.WF hash) :
    m.findRes hash k = none ↔ ∀ v, ¬ m.stored k v := by
  obtain ⟨hlen, hcount, hP, hU, hN, hdisj⟩ := hWF
  unfold HashMap.findRes
  cases hF : m.table.Find hash k with
  | some i =>
    simp only [hF]
    constructor
    · intro h
      cases h
    · intro h
      obtain ⟨-, -, ho, hk⟩ := Find_some hF
      exact ((h _) (Or.inl ⟨i, lt_length_of_occ ho, ho, hk, rfl⟩)).elim
  | none =>
    simp only [hF]
    rw [Option.map_eq_none', findOverflow_none]
    constructor
    · intro h v hst
      rcases hst with hp | hmem
      · obtain ⟨j, hks⟩ := hasPair_slot hp
        exact Find_complete hP hks hF
      · exact h _ hmem rfl
    · intro h p hmem hpk
      apply h p.2
      right
      rw [← hpk]
      exact hmem

theorem findVal_eq_some_iff {hash : Nat → Nat} {m : HashMap} {k v : Nat}
    (hWF : m.WF hash) :
    m.findVal hash k = some v ↔ m.stored k v := by
  obtain ⟨hlen, hcount, hP, hU, hN, hdisj⟩ := hWF
  unfold HashMap.findVal HashMap.findRes
  cases hF : m.table.Find hash k with
  | some i =>
    simp only [hF]
    obtain ⟨-, -, ho, hk⟩ := Find_some hF
    have hks : hasKeySlot m.table.array k i := ⟨lt_length_of_occ ho, ho, hk⟩
    constructor
    · intro h
      injection h with h
      exact Or.inl ⟨i, hks.1, ho, hk, h⟩
    · intro h
      rcases h with hp | hmem
      · obtain ⟨j, hj, hjo, hjk, hjv⟩ := hp
        have hij := hU k i j hks ⟨hj, hjo, hjk⟩
        rw [hij, hjv]
      · exact absurd hks (hdisj _ hmem i)
  | none =>
    simp only [hF]
    cases hO : findOverflow k m.list with
    | none =>
      simp only [hO, Option.map_none']
      constructor
      · intro h
        cases h
      · intro h
        exfalso
        rcases h with hp | hmem
        · obtain ⟨j, hks⟩ := hasPair_slot hp
          exact Find_complete hP hks hF
        · exact findOverflow_none.mp hO _ hmem rfl
    | some p =>
      obtain ⟨hpk, hpmem⟩ := findOverflow_some hO
      simp only [hO, Option.map_some']
      constructor
      · intro h
        injection h with h
        right
        rw [← h, ← hpk]
        exact hpmem
      · intro h
        rcases h with hp' | hmem
        · exfalso
          obtain ⟨j, hks⟩ := hasPair_slot hp'
          exact Find_complete hP hks hF
        · have hv : v = p.2 := by
            apply mem_pair_eq_of_nodup hN hmem
            rw [← hpk]
            exact hpmem
          rw [hv]

/-! ### Specification of `BucketArray::Erase` -/

theorem Erase_spec (hash : Nat → Nat) (b : BucketArray) (k : Nat)
    (b' : BucketArray) (ok : Bool)
    (hE : b.Erase hash k = (b', ok))
    (hP : Placed hash b.capacity b.array) (hU : UniqKeys b.array)
    (hcount : b.pairsCount = occCount b.array) :
    b'.array.length = b.array.length ∧
    Placed hash b.capacity b'.array ∧
    UniqKeys b'.array ∧
    b'.pairsCount = occCount b'.array ∧
    (∀ k' v', hasPair b'.array k' v' ↔ (hasPair b.array k' v' ∧ k' ≠ k)) ∧
    (ok = false → b' = b ∧ ∀ j, ¬ hasKeySlot b.array k j) := by
  unfold BucketArray.Erase at hE
  cases hF : b.Find hash k with
  | none =>
    simp only [hF] at hE
    injection hE with h1 h2
    subst h1
    subst h2
    have habs : ∀ j, ¬ hasKeySlot b.array k j := (Find_eq_none_iff hP).mp hF
    refine ⟨rfl, hP, hU, hcount, ?_, fun _ => ⟨rfl, habs⟩⟩
    intro k' v'
    constructor
    · intro hp
      refine ⟨hp, ?_⟩
      rintro rfl
      obtain ⟨j, hks⟩ := hasPair_slot hp
      exact habs j hks
    · exact fun h => h.1
  | some i =>
    simp only [hF] at hE
    injection hE with h1 h2
    subst h1
    subst h2
    obtain ⟨hge, hlt, ho, hk⟩ := Find_some hF
    have hil : i < b.array.length := lt_length_of_occ ho
    have hslot : slotAt (b.array.set i (slotAt b.array i).erase) i
        = (slotAt b.array i).erase := slotAt_set_self hil
    have herocc : ((slotAt b.array i).erase).occ = false := rfl
    refine ⟨List.length_set _ _ _, ?_, ?_, ?_, ?_, ?_⟩
    · intro j hj hjo
      rw [List.length_set] at hj
      by_cases hji : j = i
      · subst hji
        rw [hslot, herocc] at hjo
        cases hjo
      · rw [slotAt_set_ne hji] at hjo ⊢
        exact hP j hj hjo
    · intro k0 j1 j2 hk1 hk2
      have conv : ∀ j, hasKeySlot (b.array.set i (slotAt b.array i).erase) k0 j →
          hasKeySlot b.array k0 j := by
        rintro j ⟨hj, hjo, hjk⟩
        rw [List.length_set] at hj
        by_cases hji : j = i
        · subst hji
          rw [hslot, herocc] at hjo
          cases hjo
        · rw [slotAt_set_ne hji] at hjo hjk
          exact ⟨hj, hjo, hjk⟩
      exact hU k0 j1 j2 (conv _ hk1) (conv _ hk2)
    · have hcs := @occCount_set b.array i ((slotAt b.array i).erase) hil
      rw [ho, herocc] at hcs
      simp at hcs
      show b.pairsCount - 1 = occCount (b.array.set i (slotAt b.array i).erase)
      omega
    · intro k' v'
      constructor
      · rintro ⟨j, hj, hjo, hjk, hjv⟩
        rw [List.length_set] at hj
        by_cases hji : j = i
        · subst hji
          rw [hslot, herocc] at hjo
          cases hjo
        · rw [slotAt_set_ne hji] at hjo hjk hjv
          refine ⟨⟨j, hj, hjo, hjk, hjv⟩, ?_⟩
          rintro rfl
          exact hji (hU k' j i ⟨hj, hjo, hjk⟩ ⟨hil, ho, hk⟩)
      · rintro ⟨⟨j, hj, hjo, hjk, hjv⟩, hne⟩
        have hji : j ≠ i := by
          rintro rfl
          apply hne
          rw [← hjk]
          exact hk
        exact ⟨j, by simpa using hj, by rw [slotAt_set_ne hji]; exact hjo,
          by rw [slotAt_set_ne hji]; exact hjk,
          by rw [slotAt_set_ne hji]; exact hjv⟩
    · intro hfalse
      cases hfalse

/-! ### The empty table and the empty map -/

theorem slotAt_mk0 (sz j : Nat) : slotAt (BucketArray.mk0 sz).array j = default := by
  unfold BucketArray.mk0
  exact slotAt_replicate

theorem length_mk0 (sz : Nat) :
    (BucketArray.mk0 sz).array.length = sz + NEXT - 1 := by
  unfold BucketArray.mk0
  simp

theorem occCount_mk0 (sz : Nat) : occCount (BucketArray.mk0 sz).array = 0 := by
  unfold occCount
  rw [List.countP_eq_zero]
  intro j hj
  rw [slotAt_mk0]
  simp

theorem stored_empty {sz k v : Nat} :
    ¬ HashMap.stored ⟨BucketArray.mk0 sz, []⟩ k v := by
  rintro (hp | hmem)
  · obtain ⟨j, -, ho, -, -⟩ := hp
    rw [slotAt_mk0] at ho
    cases ho
  · cases hmem

theorem WF_mk0_of (hash : Nat → Nat) {sz : Nat} (hsz : INITIAL_SIZE ≤ sz) :
    HashMap.WF hash ⟨BucketArray.mk0 sz, []⟩ := by
  have hN : NEXT = 32 := rfl
  have hI : INITIAL_SIZE = 32 := rfl
  refine ⟨?_, ?_, ?_, ?_, List.nodup_nil, ?_⟩
  · rw [length_mk0]
    omega
  · show (0 : Nat) = occCount (BucketArray.mk0 sz).array
    rw [occCount_mk0]
  · intro j hj hjo
    rw [slotAt_mk0] at hjo
    cases hjo
  · intro k j1 j2 h1 h2
    exfalso
    have := h1.2.1
    rw [slotAt_mk0] at this
    cases this
  · intro p hp
    cases hp

/-! ### Key sets and entry lists under the invariant -/

theorem entriesOf_keys_nodup {arr : List Bucket} (hU : UniqKeys arr) :
    ((entriesOf arr).map Prod.fst).Nodup := by
  have hrw : (entriesOf arr).map Prod.fst
      = (List.range arr.length).filterMap
          (fun j => if (slotAt arr j).occ then some (slotAt arr j).key else none) := by
    unfold entriesOf
    rw [List.map_filterMap]
    congr 1
    funext j
    by_cases h : (slotAt arr j).occ <;> simp [h]
  rw [hrw]
  apply List.Nodup.filterMap ?_ (List.nodup_range _)
  intro a a' bkey hb hb'
  by_cases ha : (slotAt arr a).occ
  · rw [if_pos ha] at hb
    by_cases ha' : (slotAt arr a').occ
    · rw [if_pos ha'] at hb'
      simp only [Option.mem_def, Option.some.injEq] at hb hb'
      exact hU bkey a a' ⟨lt_length_of_occ ha, ha, hb⟩
        ⟨lt_length_of_occ ha', ha', hb'⟩
    · rw [if_neg ha'] at hb'
      cases hb'
  · rw [if_neg ha] at hb
    cases hb

theorem mem_entries_iff {m : HashMap} {k v : Nat} :
    (k, v) ∈ m.entries ↔ m.stored k v := by
  unfold HashMap.entries HashMap.stored
  rw [List.mem_append, mem_entriesOf]

theorem entries_keys_nodup {hash : Nat → Nat} {m : HashMap} (hWF : m.WF hash) :
    ((m.entries).map Prod.fst).Nodup := by
  obtain ⟨-, -, -, hU, hN, hdisj⟩ := hWF
  unfold HashMap.entries
  rw [List.map_append, List.nodup_append]
  refine ⟨entriesOf_keys_nodup hU, hN, ?_⟩
  intro a ha1 ha2
  obtain ⟨p, hp, hpa⟩ := List.mem_map.mp ha1
  obtain ⟨q, hq, hqa⟩ := List.mem_map.mp ha2
  have hp' : hasPair m.table.array p.1 p.2 := mem_entriesOf.mp hp
  obtain ⟨j, hks⟩ := hasPair_slot hp'
  apply hdisj q hq j
  rw [hpa] at hks
  rw [hqa]
  exact hks

/-! ### One façade-level placement step -/

theorem insertEntry_spec (hash : Nat → Nat) (m : HashMap) (k v : Nat)
    (hWF : m.WF hash) (hfresh : ∀ v', ¬ m.stored k v') :
    (insertEntry hash m (k, v)).WF hash ∧
    (∀ k' v', (insertEntry hash m (k, v)).stored k' v' ↔
      (m.stored k' v' ∨ (k' = k ∧ v' = v))) ∧
    (insertEntry hash m (k, v)).size = m.size + 1 ∧
    (insertEntry hash m (k, v)).table.array.length = m.table.array.length := by
  obtain ⟨hlen, hcount, hP, hU, hN, hdisj⟩ := hWF
  have hfreshT : ∀ j, ¬ hasKeySlot m.table.array k j := by
    intro j hks
    exact hfresh _ (Or.inl (hasKeySlot_val hks))
  have hfreshL : ∀ v', (k, v') ∉ m.list := by
    intro v' hmem
    exact hfresh v' (Or.inr hmem)
  rcases hI : m.table.Insert hash k v with ⟨t, res⟩
  have hspec := Insert_spec hash m.table k v t res hI hlen hP
  obtain ⟨s1, s2, s3, s4⟩ := hspec
  have hcapeq : t.capacity = m.table.capacity := by
    unfold BucketArray.capacity
    rw [s1]
  have s2' : Placed hash t.capacity t.array := by
    rw [hcapeq]
    exact s2
  unfold insertEntry
  cases res with
  | some e =>
    simp only [hI]
    obtain ⟨a1, a2, a3, a4, a5⟩ := s4 e rfl
    have hUt : UniqKeys t.array := a5 hfreshT hU
    refine ⟨⟨?_, ?_, s2', hUt, hN, ?_⟩, ?_, ?_, s1⟩
    · rw [s1]
      exact hlen
    · show t.pairsCount = occCount t.array
      omega
    · intro p hp j hks
      have hpp := (a4 p.1 ((slotAt t.array j).val)).mp (hasKeySlot_val hks)
      rcases hpp with hold | ⟨hk1, -⟩
      · obtain ⟨j0, hks0⟩ := hasPair_slot hold
        exact hdisj p hp j0 hks0
      · apply hfreshL p.2
        rw [← hk1]
        exact hp
    · intro k' v'
      show (hasPair t.array k' v' ∨ (k', v') ∈ m.list) ↔ _
      rw [a4 k' v']
      constructor
      · rintro ((h | h) | h)
        · exact Or.inl (Or.inl h)
        · exact Or.inr h
        · exact Or.inl (Or.inr h)
      · rintro ((h | h) | h)
        · exact Or.inl (Or.inl h)
        · exact Or.inr h
        · exact Or.inl (Or.inr h)
    · show t.pairsCount + m.list.length = m.table.pairsCount + m.list.length + 1
      omega
  | none =>
    simp only [hI]
    obtain ⟨a1, a2, a3, a4⟩ := s3 rfl
    have hkmem : k ∉ m.list.map Prod.fst := by
      intro hk
      obtain ⟨p, hp, hpk⟩ := List.mem_map.mp hk
      apply hfreshL p.2
      rw [← hpk]
      exact hp
    refine ⟨⟨?_, ?_, s2', a4 hU, ?_, ?_⟩, ?_, ?_, s1⟩
    · rw [s1]
      exact hlen
    · show t.pairsCount = occCount t.array
      omega
    · show ((m.list ++ [(k, v)]).map Prod.fst).Nodup
      rw [List.map_append, List.nodup_append]
      refine ⟨hN, by simp, ?_⟩
      intro a ha1 ha2
      simp at ha2
      subst ha2
      exact hkmem ha1
    · intro p hp j hks
      have hpp := (a2 p.1 ((slotAt t.array j).val)).mp (hasKeySlot_val hks)
      obtain ⟨j0, hks0⟩ := hasPair_slot hpp
      rcases List.mem_append.mp hp with hpl | hpr
      · exact hdisj p hpl j0 hks0
      · simp at hpr
        subst hpr
        exact hfreshT j0 hks0
    · intro k' v'
      show (hasPair t.array k' v' ∨ (k', v') ∈ m.list ++ [(k, v)]) ↔ _
      rw [a2 k' v', List.mem_append]
      constructor
      · rintro (h | h | h)
        · exact Or.inl (Or.inl h)
        · exact Or.inl (Or.inr h)
        · simp at h
          exact Or.inr h
      · rintro ((h | h) | ⟨rfl, rfl⟩)
        · exact Or.inl h
        · exact Or.inr (Or.inl h)
        · exact Or.inr (Or.inr (by simp))
    · show t.pairsCount + (m.list ++ [(k, v)]).length
        = m.table.pairsCount + m.list.length + 1
      rw [List.length_append]
      simp
      omega

theorem foldl_insertEntry_spec (hash : Nat → Nat) :
    ∀ (es : List (Nat × Nat)) (s : HashMap),
      s.WF hash → (es.map Prod.fst).Nodup →
      (∀ p ∈ es, ∀ v', ¬ s.stored p.1 v') →
      (es.foldl (insertEntry hash) s).WF hash ∧
      (∀ k v, (es.foldl (insertEntry hash) s).stored k v ↔
        (s.stored k v ∨ (k, v) ∈ es)) ∧
      (es.foldl (insertEntry hash) s).size = s.size + es.length ∧
      (es.foldl (insertEntry hash) s).table.array.length
        = s.table.array.length := by
  intro es
  induction es with
  | nil =>
    intro s hWF hN hd
    exact ⟨hWF, fun k v => by simp, by simp, rfl⟩
  | cons p ps ih =>
    intro s hWF hN hd
    rw [List.foldl_cons]
    rw [List.map_cons, List.nodup_cons] at hN
    have hfresh : ∀ v', ¬ s.stored p.1 v' :=
      hd p (List.mem_cons_self _ _)
    have hstep := insertEntry_spec hash s p.1 p.2 hWF hfresh
    obtain ⟨w1, w2, w3, w4⟩ := hstep
    have hd' : ∀ q ∈ ps, ∀ v', ¬ (insertEntry hash s p).stored q.1 v' := by
      intro q hq v' hst
      rw [w2 q.1 v'] at hst
      rcases hst with hs | ⟨hk, -⟩
      · exact hd q (List.mem_cons_of_mem _ hq) v' hs
      · apply hN.1
        rw [← hk]
        simpa using List.mem_map_of_mem Prod.fst hq
    obtain ⟨z1, z2, z3, z4⟩ := ih (insertEntry hash s p) w1 hN.2 hd'
    refine ⟨z1, ?_, ?_, ?_⟩
    · intro k v
      rw [z2 k v, w2 k v, List.mem_cons]
      constructor
      · rintro ((h | ⟨rfl, rfl⟩) | h)
        · exact Or.inl h
        · exact Or.inr (Or.inl (by simp))
        · exact Or.inr (Or.inr h)
      · rintro (h | h | h)
        · exact Or.inl (Or.inl h)
        · exact Or.inl (Or.inr ⟨congrArg Prod.fst h, congrArg Prod.snd h⟩)
        · exact Or.inr h
    · rw [z3, w3, List.length_cons]
      omega
    · rw [z4, w4]

/-! ### Reconstruct -/

theorem displaceGo_length (hash : Nat → Nat) (cap : Nat) :
    ∀ (fuel : Nat) (arr : List Bucket) (idx e : Nat),
      (displaceGo hash cap fuel arr idx e).1.length = arr.length := by
  intro fuel
  induction fuel with
  | zero => intro arr idx e; rfl
  | succ fuel ih =>
    intro arr idx e
    by_cases hc : idx + NEXT ≤ e
    · cases hfc : findSwapCandidate hash cap arr e with
      | none =>
        have hstep : displaceGo hash cap (fuel + 1) arr idx e = (arr, none) := by
          simp only [displaceGo, if_pos hc, hfc]
        rw [hstep]
      | some pot =>
        have hstep : displaceGo hash cap (fuel + 1) arr idx e
            = displaceGo hash cap fuel (swapSlots arr pot e) idx pot := by
          simp only [displaceGo, if_pos hc, hfc]
        rw [hstep, ih, length_swapSlots]
    · have hstep : displaceGo hash cap (fuel + 1) arr idx e = (arr, some e) := by
        simp only [displaceGo, if_neg hc]
      rw [hstep]

theorem Insert_shape (hash : Nat → Nat) (b : BucketArray) (k v : Nat)
    (b' : BucketArray) (res : Option Nat)
    (hI : b.Insert hash k v = (b', res)) :
    b'.array.length = b.array.length ∧
    (res = none → b'.pairsCount = b.pairsCount) ∧
    (∀ e, res = some e → b'.pairsCount = b.pairsCount + 1) := by
  unfold BucketArray.Insert at hI
  cases hfe : firstEmptyFrom b.array (b.GetIndex hash k) with
  | none =>
    simp only [hfe] at hI
    injection hI with h1 h2
    subst h1
    subst h2
    exact ⟨rfl, fun _ => rfl, fun e he => Option.noConfusion he⟩
  | some e0 =>
    simp only [hfe] at hI
    rcases hdl : displaceLoop hash b.capacity b.array (b.GetIndex hash k) e0
      with ⟨arr1, res0⟩
    have hdlG := hdl
    unfold displaceLoop at hdlG
    have hlen1 : arr1.length = b.array.length := by
      have hx := displaceGo_length hash b.capacity (e0 + 1) b.array
        (b.GetIndex hash k) e0
      rw [hdlG] at hx
      exact hx
    cases res0 with
    | none =>
      simp only [hdl] at hI
      injection hI with h1 h2
      subst h1
      subst h2
      exact ⟨hlen1, fun _ => rfl, fun e he => Option.noConfusion he⟩
    | some e =>
      simp only [hdl] at hI
      injection hI with h1 h2
      subst h1
      subst h2
      refine ⟨?_, fun hn => Option.noConfusion hn, fun e2 he2 => rfl⟩
      show (arr1.set e (Bucket.set (slotAt arr1 e) k v)).length = b.array.length
      rw [List.length_set]
      exact hlen1

theorem insertEntry_shape (hash : Nat → Nat) (m : HashMap) (p : Nat × Nat) :
    (insertEntry hash m p).table.array.length = m.table.array.length ∧
    (insertEntry hash m p).size = m.size + 1 := by
  rcases hI : m.table.Insert hash p.1 p.2 with ⟨t, res⟩
  obtain ⟨u1, u2, u3⟩ := Insert_shape hash m.table p.1 p.2 t res hI
  unfold insertEntry
  cases res with
  | none =>
    simp only [hI]
    refine ⟨u1, ?_⟩
    show t.pairsCount + (m.list ++ [p]).length
      = m.table.pairsCount + m.list.length + 1
    rw [List.length_append, u2 rfl]
    simp
    omega
  | some e =>
    simp only [hI]
    refine ⟨u1, ?_⟩
    show t.pairsCount + m.list.length = m.table.pairsCount + m.list.length + 1
    rw [u3 e rfl]
    omega

theorem foldl_insertEntry_shape (hash : Nat → Nat) :
    ∀ (es : List (Nat × Nat)) (s : HashMap),
      (es.foldl (insertEntry hash) s).table.array.length
          = s.table.array.length ∧
      (es.foldl (insertEntry hash) s).size = s.size + es.length := by
  intro es
  induction es with
  | nil => intro s; exact ⟨rfl, by simp⟩
  | cons p ps ih =>
    intro s
    rw [List.foldl_cons]
    obtain ⟨z1, z2⟩ := ih (insertEntry hash s p)
    obtain ⟨w1, w2⟩ := insertEntry_shape hash s p
    refine ⟨by rw [z1, w1], ?_⟩
    rw [z2, w2, List.length_cons]
    omega

theorem Reconstruct_eq_fold (hash : Nat → Nat) (m : HashMap) (cs : Bool) :
    m.Reconstruct hash cs false
      = m.entries.foldl (insertEntry hash)
          ⟨BucketArray.mk0 (max (if cs then
              (if 10 * m.table.pairsCount < m.table.array.length
               then m.table.capacity / 2 else m.table.capacity * 2)
            else m.table.capacity) INITIAL_SIZE), []⟩ := rfl

theorem Reconstruct_clear_eq (hash : Nat → Nat) (m : HashMap) (cs : Bool) :
    m.Reconstruct hash cs true
      = ⟨BucketArray.mk0 (max (if cs then
            (if 10 * m.table.pairsCount < m.table.array.length
             then m.table.capacity / 2 else m.table.capacity * 2)
          else m.table.capacity) INITIAL_SIZE), []⟩ := rfl

theorem capacity_mk0 {sz : Nat} (hsz : INITIAL_SIZE ≤ sz) :
    (BucketArray.mk0 sz).capacity = sz := by
  have hN : NEXT = 32 := rfl
  have hI : INITIAL_SIZE = 32 := rfl
  unfold BucketArray.capacity
  rw [length_mk0]
  omega

theorem Reconstruct_capacity (hash : Nat → Nat) (m : HashMap) (cs cl : Bool) :
    (m.Reconstruct hash cs cl).table.capacity
      = max (if cs then
          (if 10 * m.table.pairsCount < m.table.array.length
           then m.table.capacity / 2 else m.table.capacity * 2)
        else m.table.capacity) INITIAL_SIZE := by
  cases cl with
  | true =>
    rw [Reconstruct_clear_eq]
    exact capacity_mk0 (Nat.le_max_right _ _)
  | false =>
    rw [Reconstruct_eq_fold]
    unfold BucketArray.capacity
    rw [(foldl_insertEntry_shape hash m.entries _).1, length_mk0]
    have hN : NEXT = 32 := rfl
    have hle := Nat.le_max_right (if cs then
          (if 10 * m.table.pairsCount < m.table.array.length
           then m.table.capacity / 2 else m.table.capacity * 2)
        else m.table.capacity) INITIAL_SIZE
    have hI : INITIAL_SIZE = 32 := rfl
    omega

theorem Reconstruct_spec (hash : Nat → Nat) (m : HashMap) (cs : Bool)
    (hWF : m.WF hash) :
    (m.Reconstruct hash cs false).WF hash ∧
    (∀ k v, (m.Reconstruct hash cs false).stored k v ↔ m.stored k v) := by
  rw [Reconstruct_eq_fold]
  generalize hgen : max (if cs then
      (if 10 * m.table.pairsCount < m.table.array.length
       then m.table.capacity / 2 else m.table.capacity * 2)
    else m.table.capacity) INITIAL_SIZE = sz
  have hsz : INITIAL_SIZE ≤ sz := by
    rw [← hgen]
    exact Nat.le_max_right _ _
  have hWF0 := WF_mk0_of hash hsz
  have hfresh0 : ∀ p ∈ m.entries, ∀ v',
      ¬ (⟨BucketArray.mk0 sz, []⟩ : HashMap).stored p.1 v' :=
    fun p _ v' => stored_empty
  obtain ⟨w1, w2, w3, w4⟩ := foldl_insertEntry_spec hash m.entries
    ⟨BucketArray.mk0 sz, []⟩ hWF0 (entries_keys_nodup hWF) hfresh0
  refine ⟨w1, ?_⟩
  intro k v
  rw [w2 k v]
  constructor
  · rintro (h | h)
    · exact absurd h stored_empty
    · exact mem_entries_iff.mp h
  · intro h
    exact Or.inr (mem_entries_iff.mpr h)

theorem Reconstruct_size (hash : Nat → Nat) (m : HashMap) (cs : Bool) :
    (m.Reconstruct hash cs false).size
      = occCount m.table.array + m.list.length := by
  rw [Reconstruct_eq_fold]
  rw [(foldl_insertEntry_shape hash m.entries _).2]
  have hsz0 : (⟨BucketArray.mk0 (max (if cs then
      (if 10 * m.table.pairsCount < m.table.array.length
       then m.table.capacity / 2 else m.table.capacity * 2)
    else m.table.capacity) INITIAL_SIZE), []⟩ : HashMap).size = 0 := rfl
  rw [hsz0]
  unfold HashMap.entries
  rw [List.length_append, length_entriesOf]
  omega

/-! ### The façade operations preserve the invariant -/

theorem findVal_eq_none_iff {hash : Nat → Nat} {m : HashMap} {k : Nat}
    (hWF : m.WF hash) :
    m.findVal hash k = none ↔ ∀ v, ¬ m.stored k v := by
  constructor
  · intro h v hst
    have hx := (findVal_eq_some_iff hWF).mpr hst
    rw [h] at hx
    cases hx
  · intro h
    cases hfv : m.findVal hash k with
    | none => rfl
    | some w => exact absurd ((findVal_eq_some_iff hWF).mp hfv) (h w)

theorem findVal_none_findRes {hash : Nat → Nat} {m : HashMap} {k : Nat}
    (h : m.findVal hash k = none) : m.findRes hash k = none := by
  unfold HashMap.findVal at h
  cases hres : m.findRes hash k with
  | none => rfl
  | some x =>
    rw [hres] at h
    cases x with
    | inl i => cases h
    | inr p => cases h

theorem findRes_none_findVal {hash : Nat → Nat} {m : HashMap} {k : Nat}
    (h : m.findRes hash k = none) : m.findVal hash k = none := by
  unfold HashMap.findVal
  rw [h]

theorem preInsertState_spec (hash : Nat → Nat) (m : HashMap)
    (hWF : m.WF hash) :
    (m.preInsertState hash).WF hash ∧
    (∀ k v, (m.preInsertState hash).stored k v ↔ m.stored k v) := by
  unfold HashMap.preInsertState
  by_cases hc : 2 * m.table.pairsCount > m.table.array.length
      ∨ 10 * m.table.pairsCount < m.table.array.length
  · rw [if_pos hc]
    exact Reconstruct_spec hash m true hWF
  · rw [if_neg hc]
    exact ⟨hWF, fun k v => Iff.rfl⟩

theorem ForceInsert_fst_eq (hash : Nat → Nat) (m : HashMap) (k v : Nat) :
    (m.ForceInsert hash k v).1
      = insertEntry hash (m.preInsertState hash) (k, v) := by
  unfold HashMap.ForceInsert insertEntry
  rcases hI : (m.preInsertState hash).table.Insert hash k v with ⟨t, res⟩
  cases res <;> simp only [hI]

theorem ForceInsert_spec (hash : Nat → Nat) (m : HashMap) (k v : Nat)
    (hWF : m.WF hash) (hfresh : ∀ v', ¬ m.stored k v') :
    (m.ForceInsert hash k v).1.WF hash ∧
    (∀ k' v', (m.ForceInsert hash k v).1.stored k' v' ↔
      (m.stored k' v' ∨ (k' = k ∧ v' = v))) := by
  obtain ⟨hWF1, hiff⟩ := preInsertState_spec hash m hWF
  have hfresh1 : ∀ v', ¬ (m.preInsertState hash).stored k v' :=
    fun v' h => hfresh v' ((hiff k v').mp h)
  rw [ForceInsert_fst_eq]
  obtain ⟨e1, e2, -, -⟩ := insertEntry_spec hash (m.preInsertState hash) k v
    hWF1 hfresh1
  exact ⟨e1, fun k' v' => (e2 k' v').trans (or_congr (hiff k' v') Iff.rfl)⟩

theorem insert_step (hash : Nat → Nat) (m : HashMap) (k v : Nat)
    (hWF : m.WF hash) :
    (m.insert hash k v).WF hash ∧
    (∀ k', (m.insert hash k v).findVal hash k'
      = if k' = k then (m.findVal hash k').orElse (fun _ => some v)
        else m.findVal hash k') := by
  unfold HashMap.insert
  by_cases hc : m.findRes hash k = none
  · rw [if_pos hc]
    have hfresh : ∀ v', ¬ m.stored k v' := (findRes_none_iff hWF).mp hc
    obtain ⟨w1, w2⟩ := ForceInsert_spec hash m k v hWF hfresh
    refine ⟨w1, ?_⟩
    intro k'
    by_cases hk : k' = k
    · rw [if_pos hk, hk]
      have hfv : m.findVal hash k = none := findRes_none_findVal hc
      rw [hfv]
      have hx : (m.ForceInsert hash k v).1.findVal hash k = some v :=
        (findVal_eq_some_iff w1).mpr ((w2 k v).mpr (Or.inr ⟨rfl, rfl⟩))
      rw [hx]
      rfl
    · rw [if_neg hk]
      cases hfv : m.findVal hash k' with
      | none =>
        rw [findVal_eq_none_iff w1]
        intro v' hst
        rcases (w2 k' v').mp hst with hs | ⟨hkk, -⟩
        · exact (findVal_eq_none_iff hWF).mp hfv v' hs
        · exact hk hkk
      | some w =>
        exact (findVal_eq_some_iff w1).mpr
          ((w2 k' w).mpr (Or.inl ((findVal_eq_some_iff hWF).mp hfv)))
  · rw [if_neg hc]
    refine ⟨hWF, ?_⟩
    intro k'
    by_cases hk : k' = k
    · rw [if_pos hk, hk]
      cases hfv : m.findVal hash k with
      | none => exact absurd (findVal_none_findRes hfv) hc
      | some w => rfl
    · rw [if_neg hk]

theorem erase_WF (hash : Nat → Nat) (m : HashMap) (k : Nat)
    (hWF : m.WF hash) : (m.erase hash k).WF hash := by
  obtain ⟨hlen, hcount, hP, hU, hN, hdisj⟩ := hWF
  unfold HashMap.erase
  rcases hE : m.table.Erase hash k with ⟨t, ok⟩
  obtain ⟨e1, e2, e3, e4, e5, e6⟩ := Erase_spec hash m.table k t ok hE hP hU hcount
  have e2' : Placed hash t.capacity t.array := by
    have hcap : t.capacity = m.table.capacity := by
      unfold BucketArray.capacity
      rw [e1]
    rw [hcap]
    exact e2
  cases ok with
  | true =>
    simp only [hE]
    rw [if_pos trivial]
    refine ⟨by rw [e1]; exact hlen, e4, e2', e3, hN, ?_⟩
    intro p hp j hks
    have hpp := (e5 p.1 ((slotAt t.array j).val)).mp (hasKeySlot_val hks)
    obtain ⟨j0, hks0⟩ := hasPair_slot hpp.1
    exact hdisj p hp j0 hks0
  | false =>
    obtain ⟨ht, -⟩ := e6 rfl
    subst ht
    simp only [hE]
    rw [if_neg Bool.false_ne_true]
    refine ⟨hlen, hcount, hP, hU, ?_, ?_⟩
    · exact List.Nodup.sublist
        (List.Sublist.map Prod.fst (List.eraseP_sublist _)) hN
    · intro p hp j hks
      exact hdisj p ((List.eraseP_sublist _).subset hp) j hks

theorem indexAccess_step (hash : Nat → Nat) (m : HashMap) (k : Nat)
    (hWF : m.WF hash) :
    ((m.indexAccess hash k).1).WF hash ∧
    (∀ v, m.findVal hash k = some v → m.indexAccess hash k = (m, v)) := by
  unfold HashMap.indexAccess
  cases hfv : m.findVal hash k with
  | none =>
    simp only [hfv]
    refine ⟨?_, ?_⟩
    · have hfresh := (findVal_eq_none_iff hWF).mp hfv
      exact (ForceInsert_spec hash m k 0 hWF hfresh).1
    · intro v hv
      cases hv
  | some v0 =>
    simp only [hfv]
    refine ⟨hWF, ?_⟩
    intro v hv
    injection hv with hv
    rw [hv]

theorem clear_eq (hash : Nat → Nat) (m : HashMap) :
    m.clear hash
      = ⟨BucketArray.mk0 (max m.table.capacity INITIAL_SIZE), []⟩ :=
  Reconstruct_clear_eq hash m false

theorem clear_WF (hash : Nat → Nat) (m : HashMap) :
    (m.clear hash).WF hash := by
  rw [clear_eq]
  exact WF_mk0_of hash (Nat.le_max_right _ _)

theorem applyOp_WF (hash : Nat → Nat) (m : HashMap) (op : Op)
    (hWF : m.WF hash) : (applyOp hash m op).WF hash := by
  cases op with
  | ins k v => exact (insert_step hash m k v hWF).1
  | er k => exact erase_WF hash m k hWF
  | idx k => exact (indexAccess_step hash m k hWF).1
  | clr => exact clear_WF hash m

theorem WF_mk0_map (hash : Nat → Nat) : HashMap.mk0.WF hash :=
  WF_mk0_of hash (Nat.le_refl _)

theorem runOps_WF (hash : Nat → Nat) (ops : List Op) :
    (runOps hash ops).WF hash := by
  unfold runOps
  have hgen : ∀ (l : List Op) (s : HashMap), s.WF hash →
      (l.foldl (applyOp hash) s).WF hash := by
    intro l
    induction l with
    | nil => exact fun s h => h
    | cons o l ih =>
      intro s h
      rw [List.foldl_cons]
      exact ih _ (applyOp_WF hash s o h)
  exact hgen ops _ (WF_mk0_map hash)

theorem findVal_mk0 (hash : Nat → Nat) (k : Nat) :
    HashMap.mk0.findVal hash k = none :=
  (findVal_eq_none_iff (WF_mk0_map hash)).mpr (fun _ => stored_empty)

/-! ### Claim theorems -/

/-- C1: in every state reachable from a fresh map by any finite sequence of
insert, erase, index-access and clear operations, every occupied slot of the
neighborhood table at physical index `j` holding key `k` satisfies
`ideal(k) ≤ j < ideal(k) + NEXT` with `ideal(k) = hash(k) mod capacity` and
`NEXT = 32`.  The proof goes through the displacement loop: each swap moves
an occupied slot only to a position still inside its own key's window
(`Placed_swapSlots`), which is how the invariant survives every insert. -/
theorem placement_invariant_reachable (hash : Nat → Nat) (ops : List Op)
    (j : Nat) (hj : j < (runOps hash ops).table.array.length)
    (hocc : (slotAt (runOps hash ops).table.array j).occ = true) :
    (runOps hash ops).table.GetIndex hash
        (slotAt (runOps hash ops).table.array j).key ≤ j ∧
    j < (runOps hash ops).table.GetIndex hash
        (slotAt (runOps hash ops).table.array j).key + NEXT := by
  have hWF := runOps_WF hash ops
  exact hWF.2.2.1 j hj hocc

/-- Witness for C1: after inserting key 5 (identity hash) into a fresh map,
slot 5 is occupied and satisfies the placement invariant. -/
theorem placement_invariant_reachable_witness :
    (runOps (fun k => k) [Op.ins 5 7]).table.GetIndex (fun k => k)
        (slotAt (runOps (fun k => k) [Op.ins 5 7]).table.array 5).key ≤ 5 ∧
    5 < (runOps (fun k => k) [Op.ins 5 7]).table.GetIndex (fun k => k)
        (slotAt (runOps (fun k => k) [Op.ins 5 7]).table.array 5).key + NEXT :=
  placement_invariant_reachable (fun k => k) [Op.ins 5 7] 5
    (by decide) (by decide)

/-- C2: in every reachable state, keys are unique within the table, unique
within the overflow store, no key is in both storages, and `size()` equals
the occupied-slot count of the table plus the overflow length. -/
theorem uniqueness_size_invariant (hash : Nat → Nat) (ops : List Op) :
    UniqKeys (runOps hash ops).table.array ∧
    (((runOps hash ops).list.map Prod.fst)).Nodup ∧
    (∀ p, p ∈ (runOps hash ops).list →
      ∀ j, ¬ hasKeySlot (runOps hash ops).table.array p.1 j) ∧
    (runOps hash ops).size
      = occCount (runOps hash ops).table.array
        + (runOps hash ops).list.length := by
  have hWF := runOps_WF hash ops
  refine ⟨hWF.2.2.2.1, hWF.2.2.2.2.1, hWF.2.2.2.2.2, ?_⟩
  unfold HashMap.size
  rw [hWF.2.1]

/-- Witness for C2 at a concrete state: the size equation after one insert. -/
theorem uniqueness_size_invariant_witness :
    (runOps (fun k => k) [Op.ins 1 2]).size
      = occCount (runOps (fun k => k) [Op.ins 1 2]).table.array
        + (runOps (fun k => k) [Op.ins 1 2]).list.length :=
  (uniqueness_size_invariant (fun k => k) [Op.ins 1 2]).2.2.2

theorem insert_noop {hash : Nat → Nat} {m : HashMap} {k v : Nat}
    (h : m.findRes hash k ≠ none) : m.insert hash k v = m := by
  unfold HashMap.insert
  rw [if_neg h]

/-- C3: from any reachable state in which `k` is absent, `insert(k, v1)`
followed by `insert(k, v2)` stores `v1`; the second insert is a complete
no-op (the state is unchanged, hence `size()` is unchanged), and
`index_access(k)` afterwards returns `v1` without modifying the map. -/
theorem insert_first_wins (hash : Nat → Nat) (ops : List Op) (k v1 v2 : Nat)
    (habs : (runOps hash ops).findVal hash k = none) :
    ((runOps hash ops).insert hash k v1).insert hash k v2
        = (runOps hash ops).insert hash k v1 ∧
    (((runOps hash ops).insert hash k v1).insert hash k v2).findVal hash k
        = some v1 ∧
    (((runOps hash ops).insert hash k v1).insert hash k v2).size
        = ((runOps hash ops).insert hash k v1).size ∧
    ((((runOps hash ops).insert hash k v1).insert hash k v2).indexAccess
        hash k)
      = (((runOps hash ops).insert hash k v1).insert hash k v2, v1) := by
  have hWF := runOps_WF hash ops
  obtain ⟨w1, w2⟩ := insert_step hash (runOps hash ops) k v1 hWF
  have hfv1 : ((runOps hash ops).insert hash k v1).findVal hash k
      = some v1 := by
    rw [w2 k, if_pos rfl, habs]
    rfl
  have hne : ((runOps hash ops).insert hash k v1).findRes hash k ≠ none := by
    intro hres
    have hx := findRes_none_findVal hres
    rw [hfv1] at hx
    cases hx
  have hnoop : ((runOps hash ops).insert hash k v1).insert hash k v2
      = (runOps hash ops).insert hash k v1 := insert_noop hne
  refine ⟨hnoop, by rw [hnoop]; exact hfv1, by rw [hnoop], ?_⟩
  rw [hnoop]
  exact (indexAccess_step hash _ k w1).2 v1 hfv1

/-- Witness for C3: key 1 absent from the fresh map; inserting (1,2) then
(1,3) stores 2. -/
theorem insert_first_wins_witness :
    ((runOps (fun k => k) []).insert (fun k => k) 1 2).insert (fun k => k) 1 3
        = (runOps (fun k => k) []).insert (fun k => k) 1 2 ∧
    (((runOps (fun k => k) []).insert (fun k => k) 1 2).insert
        (fun k => k) 1 3).findVal (fun k => k) 1 = some 2 ∧
    (((runOps (fun k => k) []).insert (fun k => k) 1 2).insert
        (fun k => k) 1 3).size
      = ((runOps (fun k => k) []).insert (fun k => k) 1 2).size ∧
    ((((runOps (fun k => k) []).insert (fun k => k) 1 2).insert
        (fun k => k) 1 3).indexAccess (fun k => k) 1)
      = (((runOps (fun k => k) []).insert (fun k => k) 1 2).insert
          (fun k => k) 1 3, 2) :=
  insert_first_wins (fun k => k) [] 1 2 3 (by decide)

/-- C4 counterexample: the claim says `find` returns the *last* value
inserted for a key, but insert is first-insert-wins: after inserting
`(1, 10)` and then `(1, 20)` into a fresh map, `find 1` yields `10`,
not `20`. -/
theorem round_trip_counterexample :
    HashMap.findVal (fun k => k)
        (runOps (fun k => k) [Op.ins 1 10, Op.ins 1 20]) 1 = some 10 ∧
    some (10 : Nat) ≠ some 20 := by
  constructor
  · decide
  · decide

/-- C4 amended: for any finite sequence of inserts from a fresh map, `find`
on any key returns the *first* value inserted for that key (first-insert-wins),
and `none` exactly for keys never inserted. -/
theorem round_trip_first_value (hash : Nat → Nat) (ps : List (Nat × Nat))
    (k : Nat) :
    HashMap.findVal hash
        (runOps hash (ps.map (fun p => Op.ins p.1 p.2))) k
      = firstValue k ps := by
  unfold runOps
  have hgen : ∀ (qs : List (Nat × Nat)) (s : HashMap), s.WF hash →
      HashMap.findVal hash
          ((qs.map (fun p => Op.ins p.1 p.2)).foldl (applyOp hash) s) k
        = (s.findVal hash k).orElse (fun _ => firstValue k qs) := by
    intro qs
    induction qs with
    | nil =>
      intro s hWF
      show s.findVal hash k = (s.findVal hash k).orElse (fun _ => none)
      cases s.findVal hash k <;> rfl
    | cons p qs ih =>
      intro s hWF
      rw [List.map_cons, List.foldl_cons]
      obtain ⟨w1, w2⟩ := insert_step hash s p.1 p.2 hWF
      have hstep : applyOp hash s (Op.ins p.1 p.2) = s.insert hash p.1 p.2 := rfl
      rw [hstep, ih (s.insert hash p.1 p.2) w1, w2 k]
      have hfv : firstValue k (p :: qs)
          = if p.1 = k then some p.2 else firstValue k qs := rfl
      rw [hfv]
      by_cases hk : k = p.1
      · rw [if_pos hk, if_pos hk.symm]
        cases s.findVal hash k <;> rfl
      · rw [if_neg hk, if_neg (fun h => hk h.symm)]
  rw [hgen ps HashMap.mk0 (WF_mk0_map hash), findVal_mk0]
  rfl

set_option maxRecDepth 100000 in
/-- C5 counterexample: grow the table to capacity 64 (33 inserts with the
identity hash), then `clear()`.  The size drops to 0 but the new table keeps
capacity 64 — it is *not* rebuilt at the minimum (initial) capacity 32,
because `clear` calls `Reconstruct(change_size = false, clear = true)`. -/
theorem clear_keeps_capacity_counterexample :
    (runOps (fun k => k)
        ((List.range 33).map (fun k => Op.ins k k) ++ [Op.clr])).table.capacity
      = 64 ∧
    (64 : Nat) ≠ INITIAL_SIZE ∧
    (runOps (fun k => k)
        ((List.range 33).map (fun k => Op.ins k k) ++ [Op.clr])).size = 0 := by
  refine ⟨by decide, by decide, by decide⟩

/-- C5 amended: after `clear()` the size is 0, the overflow store is empty
and every table slot is unoccupied (no old data is re-inserted), but the new
table keeps the *current* capacity (clamped below by the initial capacity
32) rather than resetting to the minimum capacity. -/
theorem clear_spec (hash : Nat → Nat) (m : HashMap) :
    (m.clear hash).size = 0 ∧
    (m.clear hash).list = [] ∧
    (∀ j, (slotAt (m.clear hash).table.array j).occ = false) ∧
    (m.clear hash).table.capacity = max m.table.capacity INITIAL_SIZE := by
  rw [clear_eq]
  refine ⟨rfl, rfl, ?_, capacity_mk0 (Nat.le_max_right _ _)⟩
  intro j
  rw [slotAt_mk0]
  rfl

/-- C6 counterexample: the very first insert into a fresh map triggers a
reconstruct (load factor 0 is below the minimum 0.1), and immediately after
the triggering event — even counting the pending insert — the load factor is
1/63, still below 0.1, because the capacity is clamped at the minimum. -/
theorem load_factor_counterexample :
    (2 * HashMap.mk0.table.pairsCount > HashMap.mk0.table.array.length ∨
     10 * HashMap.mk0.table.pairsCount < HashMap.mk0.table.array.length) ∧
    10 * (runOps (fun k => k) [Op.ins 0 0]).table.pairsCount
      < (runOps (fun k => k) [Op.ins 0 0]).table.array.length := by
  constructor
  · right
    decide
  · decide

/-- C6 amended: a resizing reconstruct halves the capacity when the load
factor is below 0.1 and doubles it otherwise, clamping below at the initial
capacity 32, and re-inserts every live pair (so the combined size is exactly
the old occupied count plus the old overflow length).  The load factor
itself is not guaranteed to land in [0.1, 0.5]: see the counterexample. -/
theorem reconstruct_capacity_size (hash : Nat → Nat) (m : HashMap) :
    (m.Reconstruct hash true false).table.capacity
      = max (if 10 * m.table.pairsCount < m.table.array.length
             then m.table.capacity / 2 else m.table.capacity * 2)
          INITIAL_SIZE ∧
    (m.Reconstruct hash true false).size
      = occCount m.table.array + m.list.length :=
  ⟨Reconstruct_capacity hash m true false, Reconstruct_size hash m true⟩

/-- C7: whenever the table's insert (attempted on the post-load-factor-check
state) fails, `ForceInsert` appends the pair to the overflow store, returns
a reference to that overflow entry (its index is the old overflow length),
and the key is findable in the map afterwards with its value; the failure is
never surfaced as an error (`ForceInsert` is a total function). -/
theorem overflow_routing (hash : Nat → Nat) (ops : List Op) (k v : Nat)
    (habs : (runOps hash ops).findVal hash k = none)
    (hfail : (((runOps hash ops).preInsertState hash).table.Insert hash k v).2
      = none) :
    ((runOps hash ops).ForceInsert hash k v).2
        = RefLoc.overflow ((runOps hash ops).preInsertState hash).list.length ∧
    ((runOps hash ops).ForceInsert hash k v).1.list
        = ((runOps hash ops).preInsertState hash).list ++ [(k, v)] ∧
    ((runOps hash ops).ForceInsert hash k v).1.findVal hash k = some v := by
  have hWF := runOps_WF hash ops
  have hfresh := (findVal_eq_none_iff hWF).mp habs
  have h1 := ForceInsert_spec hash (runOps hash ops) k v hWF hfresh
  have hfind : ((runOps hash ops).ForceInsert hash k v).1.findVal hash k
      = some v :=
    (findVal_eq_some_iff h1.1).mpr ((h1.2 k v).mpr (Or.inr ⟨rfl, rfl⟩))
  rcases hI : ((runOps hash ops).preInsertState hash).table.Insert hash k v
    with ⟨t, res⟩
  have hres : res = none := by
    rw [hI] at hfail
    exact hfail
  subst hres
  have hFI : (runOps hash ops).ForceInsert hash k v
      = (⟨t, ((runOps hash ops).preInsertState hash).list ++ [(k, v)]⟩,
         RefLoc.overflow ((runOps hash ops).preInsertState hash).list.length)
      := by
    unfold HashMap.ForceInsert
    simp only [hI]
  rw [hFI] at hfind
  rw [hFI]
  exact ⟨rfl, rfl, hfind⟩

set_option maxRecDepth 100000 in
/-- Witness for C7: with the constant hash, after 32 inserts the window of
ideal index 0 is full; inserting key 32 fails in the table and is routed to
the overflow store, where it is findable. -/
theorem overflow_routing_witness :
    ((runOps (fun _ => 0)
        ((List.range 32).map (fun k => Op.ins k (k + 100)))).ForceInsert
        (fun _ => 0) 32 132).1.findVal (fun _ => 0) 32 = some 132 :=
  (overflow_routing (fun _ => 0)
    ((List.range 32).map (fun k => Op.ins k (k + 100))) 32 132
    (by decide) (by decide)).2.2

/-- C8: in every reachable state, `at(k)` raises KeyNotFound (modelled as
`Except.error ()`) exactly when `k` is stored nowhere in the map, and
returns the stored value otherwise; `at` never mutates (it is a pure
function of the state).  When `k` is absent, `find` returns the end marker
(a normal not-found result) and `erase` leaves the map unchanged — neither
is an error. -/
theorem at_key_not_found (hash : Nat → Nat) (ops : List Op) (k : Nat) :
    ((runOps hash ops).atKey hash k = Except.error () ↔
      ∀ v, ¬ (runOps hash ops).stored k v) ∧
    (∀ v, (runOps hash ops).stored k v →
      (runOps hash ops).atKey hash k = Except.ok v) ∧
    ((∀ v, ¬ (runOps hash ops).stored k v) →
      (runOps hash ops).findRes hash k = none ∧
      (runOps hash ops).erase hash k = runOps hash ops) := by
  have hWF := runOps_WF hash ops
  refine ⟨?_, ?_, ?_⟩
  · unfold HashMap.atKey
    cases hfv : (runOps hash ops).findVal hash k with
    | none =>
      simp only [hfv]
      constructor
      · intro _
        exact (findVal_eq_none_iff hWF).mp hfv
      · intro _
        trivial
    | some w =>
      simp only [hfv]
      constructor
      · intro h
        cases h
      · intro h
        exact absurd ((findVal_eq_some_iff hWF).mp hfv) (h w)
  · intro v hst
    unfold HashMap.atKey
    rw [(findVal_eq_some_iff hWF).mpr hst]
  · intro h
    have hfv : (runOps hash ops).findVal hash k = none :=
      (findVal_eq_none_iff hWF).mpr h
    have hres := findVal_none_findRes hfv
    refine ⟨hres, ?_⟩
    have hFnone : (runOps hash ops).table.Find hash k = none := by
      unfold HashMap.findRes at hres
      cases hF : (runOps hash ops).table.Find hash k with
      | none => rfl
      | some i =>
        rw [hF] at hres
        cases hres
    have hE : (runOps hash ops).table.Erase hash k
        = ((runOps hash ops).table, false) := by
      unfold BucketArray.Erase
      simp only [hFnone]
    unfold HashMap.erase
    simp only [hE]
    rw [if_neg Bool.false_ne_true]
    have hlist : (runOps hash ops).list.eraseP (fun p => p.1 == k)
        = (runOps hash ops).list := by
      apply List.eraseP_of_forall_not
      intro q hq hbe
      have hqk : q.1 = k := by simpa using hbe
      apply h q.2
      right
      rw [← hqk]
      exact hq
    rw [hlist]

/-- Witness for C8: `at` on the fresh map raises KeyNotFound. -/
theorem at_key_not_found_witness :
    (runOps (fun k => k) []).atKey (fun k => k) 5 = Except.error () :=
  (at_key_not_found (fun k => k) [] 5).1.mpr (fun _ => stored_empty)

/-- C9: for every key, the ideal index `hash(key) mod capacity` is at most
`capacity - 1`; since the physical array is `capacity + NEXT - 1` slots
long, every index of `find`'s scan over `[ideal, ideal + NEXT)` is strictly
within bounds, so the scan never reads out of range. -/
theorem window_scan_bounds (hash : Nat → Nat) (b : BucketArray) (k : Nat)
    (hlen : NEXT ≤ b.array.length) :
    b.array.length = b.capacity + NEXT - 1 ∧
    b.GetIndex hash k ≤ b.capacity - 1 ∧
    (∀ i, b.GetIndex hash k ≤ i → i < b.GetIndex hash k + NEXT →
      i < b.array.length) := by
  obtain ⟨h1, h2⟩ := GetIndex_bound hash b k hlen
  have hN : NEXT = 32 := rfl
  refine ⟨?_, by omega, fun i hi1 hi2 => by omega⟩
  unfold BucketArray.capacity
  omega

/-- Witness for C9: on a freshly constructed table, the whole scan window of
key 5 is in bounds. -/
theorem window_scan_bounds_witness :
    5 < (BucketArray.mk0 INITIAL_SIZE).array.length :=
  (window_scan_bounds (fun k => k) (BucketArray.mk0 INITIAL_SIZE) 5
    (by decide)).2.2 5 (by decide) (by decide)

/-- C10: whenever the displacement loop scans for a swap candidate (its
invariant `LoopInv` holds and the loop condition `idx + NEXT ≤ e` is true),
every candidate slot in `[e - NEXT + 1, e)` is occupied at the moment its
key is read — the algorithm never reads the unspecified pair of an
unoccupied slot — and each performed swap re-establishes the invariant with
the vacated slot as the new free slot, so the property is maintained for the
whole loop. -/
theorem displacement_reads_occupied (hash : Nat → Nat) (cap : Nat)
    (arr : List Bucket) (idx e : Nat)
    (hinv : LoopInv hash cap arr idx e) (hloop : idx + NEXT ≤ e) :
    (∀ pot, e - NEXT + 1 ≤ pot → pot < e → (slotAt arr pot).occ = true) ∧
    (∀ pot, findSwapCandidate hash cap arr e = some pot →
      LoopInv hash cap (swapSlots arr pot e) idx pot) := by
  obtain ⟨hel, hie, hue, hor, hpl⟩ := hinv
  have hN : NEXT = 32 := rfl
  constructor
  · intro pot h1 h2
    exact hor pot h2 (by omega)
  · intro pot hfc
    unfold findSwapCandidate at hfc
    obtain ⟨hge, hlt, hpred, -⟩ := find?_range'_some.mp hfc
    have hpred' : e < hash (slotAt arr pot).key % cap + NEXT :=
      of_decide_eq_true hpred
    have hpotlt : pot < e := by omega
    have ho : (slotAt arr pot).occ = true := hor pot hpotlt (by omega)
    refine ⟨by rw [length_swapSlots]; omega, by omega, ?_, ?_, ?_⟩
    · rw [slotAt_swapSlots_pot (by omega) (by omega) hue]
    · intro j hj1 hj2
      rw [slotAt_swapSlots_other (by omega) (by omega)]
      exact hor j (by omega) hj2
    · exact Placed_swapSlots hpl (by omega) hel (by omega) ho hue hpred'
        (by omega)

/-- Witness for C10: a concrete loop state — slots 0..31 hold keys 0..31
(identity hash, capacity 32), slot 32 is the free slot — satisfies the loop
invariant, and slot 1, inside the scanned range, is occupied. -/
theorem displacement_reads_occupied_witness :
    (slotAt ((List.range 32).map (fun j => (⟨j, 0, true⟩ : Bucket))
        ++ List.replicate 31 (default : Bucket)) 1).occ = true :=
  (displacement_reads_occupied (fun k => k) 32
    ((List.range 32).map (fun j => (⟨j, 0, true⟩ : Bucket))
      ++ List.replicate 31 (default : Bucket)) 0 32
    (by unfold LoopInv occRange Placed; decide) (by decide)).1 1
    (by decide) (by decide)
